import Mathlib

/-!
Verification of the incremental spell-check engine of nova-front/textarea.

The definitions below are a shallow embedding of the TypeScript sources:
the worker (`LRUCache`, `processText`, `processIncrementalText`,
`getSuggestions`, `getSimpleSuggestions`, `calculateEditDistance`, the
`self.onmessage` dispatcher), the diff-region utilities
(`calculateIncrementalCheckRegions`, `calculateTextChanges`,
`expandRegionWithContext`, `mergeOverlappingRegions`) and
`CustomDictionary.addWord`.  JavaScript strings are modelled as Lean
`String`s (ASCII fragment), the regex `/\b[a-zA-Z']{2,}\b/g` is modelled
by an explicit scanner with JavaScript word-boundary semantics, and the
worker's time-based cooperative yields (`Date.now() - startTime > 16`)
are omitted since they do not affect any computed value.
-/

namespace SpellWorker

/-- JavaScript word character (`\w` = `[A-Za-z0-9_]`). -/
def isWordChar (c : Char) : Bool :=
  (97 ≤ c.toNat && c.toNat ≤ 122) || (65 ≤ c.toNat && c.toNat ≤ 90) ||
    (48 ≤ c.toNat && c.toNat ≤ 57) || (c.toNat == 95)

/-- A character matched by the class `[a-zA-Z']`. -/
def isClassChar (c : Char) : Bool :=
  (97 ≤ c.toNat && c.toNat ≤ 122) || (65 ≤ c.toNat && c.toNat ≤ 90) ||
    (c.toNat == 39)

/-- JavaScript whitespace (the ASCII fragment of `\s`). -/
def isJsSpace (c : Char) : Bool :=
  (c.toNat == 32) || (9 ≤ c.toNat && c.toNat ≤ 13)

/-- `text.replace(/\s+/g, '')`: delete every whitespace character. -/
def stripWS (s : String) : String :=
  String.mk (s.toList.filter (fun c => !isJsSpace c))

/-- One character of JavaScript `toLowerCase()` (ASCII fragment). -/
def toLowerChar (c : Char) : Char :=
  if 65 ≤ c.toNat ∧ c.toNat ≤ 90 then Char.ofNat (c.toNat + 32) else c

/-- JavaScript `s.toLowerCase()` (ASCII fragment). -/
def toLowerStr (s : String) : String :=
  String.mk (s.toList.map toLowerChar)

/-- JavaScript `s.trim()` (ASCII whitespace). -/
def trimStr (s : String) : String :=
  String.mk (((s.toList.dropWhile isJsSpace).reverse.dropWhile isJsSpace).reverse)

/-- JavaScript `s.slice(0, n)` for `n ≥ 0`. -/
def takeStr (s : String) (n : Nat) : String :=
  String.mk (s.toList.take n)

/-- JavaScript `s.slice(a, b)` for `0 ≤ a ≤ b`. -/
def sliceStr (s : String) (a b : Nat) : String :=
  String.mk ((s.toList.drop a).take (b - a))

/-! ## The word regex `/\b[a-zA-Z']{2,}\b/g`

`exec` is modelled by an explicit scanner: starting from the last match
end it tries every position `i` in turn; at `i` the regex requires a word
boundary, then a maximal-first (greedy, backtracking) run of `[a-zA-Z']`
of length at least 2, then a word boundary.  The scanner is written with
explicit fuel so that it is structurally recursive and kernel-evaluable;
`tokenize` supplies adequate fuel. -/

/-- Whether the character at index `i` (if any) is a word character. -/
def wordAt (s : List Char) (i : Nat) : Bool :=
  match s.get? i with
  | some c => isWordChar c
  | none => false

/-- JavaScript `\b` at position `i` of `s`. -/
def boundaryB (s : List Char) (i : Nat) : Bool :=
  (if i = 0 then false else wordAt s (i - 1)) != wordAt s i

/-- Length of the maximal run of `[a-zA-Z']` characters starting at `i`. -/
def runLen (s : List Char) (i : Nat) : Nat :=
  ((s.drop i).takeWhile isClassChar).length

/-- Greedy backtracking for `{2,}` followed by `\b`: the largest
`2 ≤ k ≤ m` with a word boundary at `i + k`, if any. -/
def findK (s : List Char) (i : Nat) : Nat → Option Nat
  | 0 => none
  | 1 => none
  | m + 2 => if boundaryB s (i + (m + 2)) then some (m + 2) else findK s i (m + 1)

/-- A regex match: the matched word and its character span. -/
structure Token where
  word : String
  start : Nat
  «end» : Nat
  deriving DecidableEq, Repr

/-- The scan loop of repeated `exec` calls, with explicit fuel. -/
def scanTokens (s : List Char) : Nat → Nat → List Token
  | 0, _ => []
  | fuel + 1, i =>
    if s.length ≤ i then []
    else if boundaryB s i then
      match findK s i (runLen s i) with
      | some k =>
          ⟨String.mk ((s.drop i).take k), i, i + k⟩ :: scanTokens s fuel (i + k)
      | none => scanTokens s fuel (i + 1)
    else scanTokens s fuel (i + 1)

/-- All matches of `/\b[a-zA-Z']{2,}\b/g` over `text`, in order. -/
def tokenize (text : String) : List Token :=
  scanTokens text.toList (text.toList.length + 1) 0

/-! ## LRUCache

The worker's `LRUCache` (hash map + recency-ordered doubly linked list)
is modelled as a capacity plus an association list ordered most recently
used first; the linked-list surgery of the source corresponds to moving
or inserting at the head and dropping the last element on overflow. -/

structure LRUCache (K V : Type) where
  capacity : Nat
  entries : List (K × V)
  deriving Repr

/-- Remove the entry (if any) whose key is `k` (first occurrence). -/
def removeKey {K V : Type} [DecidableEq K] : List (K × V) → K → List (K × V)
  | [], _ => []
  | p :: ps, k => if p.1 = k then ps else p :: removeKey ps k

/-- A fresh cache (`new LRUCache(capacity)`). -/
def LRUCache.empty (K V : Type) (capacity : Nat) : LRUCache K V :=
  ⟨capacity, []⟩

/-- `get`: on a hit, move the node to the head and return its value. -/
def LRUCache.get {K V : Type} [DecidableEq K] (c : LRUCache K V) (k : K) :
    Option V × LRUCache K V :=
  match c.entries.find? (fun p => decide (p.1 = k)) with
  | none => (none, c)
  | some p => (some p.2, ⟨c.capacity, (k, p.2) :: removeKey c.entries k⟩)

/-- `has`: key lookup without touching the recency order. -/
def LRUCache.has {K V : Type} [DecidableEq K] (c : LRUCache K V) (k : K) : Bool :=
  (c.entries.find? (fun p => decide (p.1 = k))).isSome

/-- `set`: update-and-promote an existing key, or insert at the head and
evict the least recently used entry once the size exceeds the capacity. -/
def LRUCache.set {K V : Type} [DecidableEq K] (c : LRUCache K V) (k : K) (v : V) :
    LRUCache K V :=
  if c.has k then ⟨c.capacity, (k, v) :: removeKey c.entries k⟩
  else
    let l := (k, v) :: c.entries
    ⟨c.capacity, if c.capacity < l.length then l.dropLast else l⟩

/-- `clear`. -/
def LRUCache.clear {K V : Type} (c : LRUCache K V) : LRUCache K V :=
  ⟨c.capacity, []⟩

/-- The keys currently cached, most recently used first. -/
def LRUCache.keys {K V : Type} (c : LRUCache K V) : List K :=
  c.entries.map Prod.fst

/-- Fold `set` over a list of key/value pairs, in order. -/
def insertList {K V : Type} [DecidableEq K] (c : LRUCache K V)
    (ps : List (K × V)) : LRUCache K V :=
  ps.foldl (fun acc p => acc.set p.1 p.2) c

/-! ## Worker state

The worker's module-scope mutable state (`dictionary`, `customWords`,
`checkedCache`, `regionCache`, `currentCheckCache`, `lastFullText`) is
an explicit record threaded through every operation.  The external
`Typo` morphological dictionary is an opaque capability
`check : String → Bool`, `suggest : String → List String`; the engine
additionally records the words it passes to `check` in a `calls` trace,
so that "no dictionary call" claims are observable. -/

/-- The opaque `typo-js` dictionary capability. -/
structure Dict where
  check : String → Bool
  suggest : String → List String

/-- A check result entry as pushed by `processText` (`{word, start, end}`). -/
structure CheckEntry where
  word : String
  start : Nat
  «end» : Nat
  deriving DecidableEq, Repr

/-- A `SpellCheckResult` as pushed by `processIncrementalText`. -/
structure SpellCheckResult where
  word : String
  start : Nat
  «end» : Nat
  isCorrect : Bool
  deriving DecidableEq, Repr

/-- An entry of the region cache: the region's word list and its
region-local results. -/
structure RegionEntry where
  words : List String
  results : List SpellCheckResult
  deriving DecidableEq, Repr

/-- An incremental check region (`{start, end, text}`). -/
structure Region where
  start : Nat
  «end» : Nat
  text : String
  deriving DecidableEq, Repr

/-- The worker's module-scope state. -/
structure WState where
  dictionary : Option Dict
  customWords : List String
  checkedCache : LRUCache String Bool
  regionCache : LRUCache String RegionEntry
  currentCheckCache : List (String × Bool)
  lastFullText : String

/-- The worker's initial state: no dictionary, empty custom word set,
word cache of capacity 5000, region cache of capacity 1000. -/
def initialState : WState :=
  ⟨none, [], LRUCache.empty String Bool 5000,
    LRUCache.empty String RegionEntry 1000, [], ""⟩

/-- A worker state with a given dictionary and custom word set and
everything else as at worker start. -/
def mkState (d : Option Dict) (cw : List String) : WState :=
  ⟨d, cw, LRUCache.empty String Bool 5000,
    LRUCache.empty String RegionEntry 1000, [], ""⟩

/-- `Map.set` on the `currentCheckCache` association list. -/
def setAssoc (m : List (String × Bool)) (k : String) (v : Bool) :
    List (String × Bool) :=
  if m.any (fun p => p.1 == k) then
    m.map (fun p => if p.1 == k then (k, v) else p)
  else m ++ [(k, v)]

/-- `customWords.has(w) || (dictionary?.check(w) ?? true)`, with the
short-circuit of `||`: the dictionary is called only when the custom
word set misses.  Returns the verdict and the dictionary calls made. -/
def checkWord (st : WState) (lowerWord : String) : Bool × List String :=
  if st.customWords.contains lowerWord then (true, [])
  else
    match st.dictionary with
    | some d => (d.check lowerWord, [lowerWord])
    | none => (true, [])

/-! ## processText (full check) -/

/-- Accumulator of the `processText` loop. -/
structure PTAcc where
  results : List CheckEntry
  state : WState
  calls : List String

/-- One iteration of the `processText` word loop. -/
def processWord (acc : PTAcc) (tok : Token) : PTAcc :=
  let word := tok.word
  let lowerWord := toLowerStr word
  if acc.state.checkedCache.has lowerWord then
    let (v, cc) := acc.state.checkedCache.get lowerWord
    let st := { acc.state with checkedCache := cc }
    match v with
    | some true => { acc with state := st }
    | _ =>
      { results := acc.results ++ [⟨word, tok.start, tok.«end»⟩],
        state := { st with
          currentCheckCache := setAssoc st.currentCheckCache lowerWord false },
        calls := acc.calls }
  else
    let (isValid, newCalls) := checkWord acc.state lowerWord
    let st := { acc.state with
      checkedCache := acc.state.checkedCache.set lowerWord isValid }
    if isValid then { acc with state := st, calls := acc.calls ++ newCalls }
    else
      { results := acc.results ++ [⟨word, tok.start, tok.«end»⟩],
        state := { st with
          currentCheckCache := setAssoc st.currentCheckCache lowerWord false },
        calls := acc.calls ++ newCalls }

/-- `processText(fullText)`: run the word regex over the full text and
check each word through the word cache. -/
def processText (st : WState) (fullText : String) : PTAcc :=
  (tokenize fullText).foldl processWord ⟨[], st, []⟩

/-! ## processIncrementalText -/

/-- Accumulator of the per-region word loop. -/
structure RegAcc where
  regionWords : List String
  regionResults : List SpellCheckResult
  results : List SpellCheckResult
  state : WState
  calls : List String

/-- One iteration of the per-region word loop of
`processIncrementalText`. -/
def processRegionWord (regionStart : Nat) (acc : RegAcc) (tok : Token) : RegAcc :=
  let word := tok.word
  let lowerWord := toLowerStr word
  let acc := { acc with regionWords := acc.regionWords ++ [word] }
  if acc.state.checkedCache.has lowerWord then
    let (v, cc) := acc.state.checkedCache.get lowerWord
    let st := { acc.state with checkedCache := cc }
    match v with
    | some true => { acc with state := st }
    | _ =>
      let result : SpellCheckResult := ⟨word, tok.start, tok.«end», false⟩
      { acc with
        regionResults := acc.regionResults ++ [result],
        results := acc.results ++
          [{ result with start := result.start + regionStart,
                         «end» := result.«end» + regionStart }],
        state := { st with
          currentCheckCache := setAssoc st.currentCheckCache lowerWord false } }
  else
    let (isValid, newCalls) := checkWord acc.state lowerWord
    let st := { acc.state with
      checkedCache := acc.state.checkedCache.set lowerWord isValid }
    if isValid then { acc with state := st, calls := acc.calls ++ newCalls }
    else
      let result : SpellCheckResult := ⟨word, tok.start, tok.«end», false⟩
      { acc with
        regionResults := acc.regionResults ++ [result],
        results := acc.results ++
          [{ result with start := result.start + regionStart,
                         «end» := result.«end» + regionStart }],
        state := { st with
          currentCheckCache := setAssoc st.currentCheckCache lowerWord false },
        calls := acc.calls ++ newCalls }

/-- Accumulator of the region loop of `processIncrementalText`. -/
structure ITAcc where
  results : List SpellCheckResult
  state : WState
  calls : List String

/-- The region cache key `"{start}-{end}"`. -/
def regionKey (r : Region) : String :=
  toString r.start ++ "-" ++ toString r.«end»

/-- The staleness guard of `processIncrementalText`: a cached entry is
used when `cached.words.join('') === regionText.replace(/\s+/g, '')`. -/
def regionEntryFresh (cached : RegionEntry) (regionText : String) : Bool :=
  String.join cached.words == stripWS regionText

/-- One iteration of the region loop of `processIncrementalText`. -/
def processRegionStep (acc : ITAcc) (region : Region) : ITAcc :=
  let key := regionKey region
  let got := acc.state.regionCache.get key
  let st := { acc.state with regionCache := got.2 }
  let recompute : ITAcc :=
    let inner := (tokenize region.text).foldl (processRegionWord region.start)
      ⟨[], [], acc.results, st, acc.calls⟩
    { results := inner.results,
      state := { inner.state with
        regionCache := inner.state.regionCache.set key
          ⟨inner.regionWords, inner.regionResults⟩ },
      calls := inner.calls }
  match got.1 with
  | some cached =>
    if regionEntryFresh cached region.text then
      { acc with
        state := st,
        results := acc.results ++ cached.results.map (fun r =>
          { r with start := r.start + region.start,
                   «end» := r.«end» + region.start }) }
    else recompute
  | none => recompute

/-- `processIncrementalText(fullText, regions)`.  The full text argument
is unused by the source (`_fullText`); the loop first clears the
`currentCheckCache`. -/
def processIncrementalText (st : WState) (_fullText : String)
    (regions : List Region) : ITAcc :=
  regions.foldl processRegionStep ⟨[], { st with currentCheckCache := [] }, []⟩

/-- Whether a later check of region `r` would be served from the region
cache of `st` (the guard of the region loop, as a read-only predicate). -/
def regionHit (st : WState) (r : Region) : Bool :=
  match (st.regionCache.get (regionKey r)).1 with
  | some cached => regionEntryFresh cached r.text
  | none => false

/-! ## Suggestions -/

/-- The fixed reference list of common English words of
`getSimpleSuggestions`, verbatim (duplicates included). -/
def commonWords : List String :=
  ["the", "be", "to", "of", "and", "a", "in", "that", "have", "i",
   "it", "for", "not", "on", "with", "he", "as", "you", "do", "at",
   "this", "but", "his", "by", "from", "they", "we", "say", "her", "she",
   "or", "an", "will", "my", "one", "all", "would", "there", "their", "what",
   "so", "up", "out", "if", "about", "who", "get", "which", "go", "me",
   "when", "make", "can", "like", "time", "no", "just", "him", "know", "take",
   "people", "into", "year", "your", "good", "some", "could", "them", "see",
   "other", "than", "then", "now", "look", "only", "come", "its", "over",
   "think", "also", "back", "after", "use", "two", "how", "our", "work",
   "first", "well", "way", "even", "new", "want", "because", "any", "these",
   "give", "day", "most", "us", "is", "water", "long", "very", "find",
   "still", "life", "become", "here", "old", "see", "him", "two", "more",
   "go", "do", "no", "way", "could", "my", "than", "first", "been", "call",
   "who", "its", "now", "find", "long", "down", "day", "did", "get", "come",
   "made", "may", "part"]

/-- One row of the Levenshtein matrix from the previous row:
`matrix[i][j] = if s1[i-1] = s2[j-1] then matrix[i-1][j-1]
 else min (matrix[i-1][j], matrix[i][j-1], matrix[i-1][j-1]) + 1`.
`prevRow` supplies `matrix[i-1][j-1]` and `matrix[i-1][j]` as the list
is consumed pairwise; `left` is `matrix[i][j-1]`. -/
def edRowAux (c1 : Char) : List Char → List Nat → Nat → List Nat
  | [], _, _ => []
  | _ :: _, [], _ => []
  | _ :: _, [_], _ => []
  | c2 :: cs, pjm1 :: pj :: prest, left =>
    let cur := if c1 = c2 then pjm1
      else Nat.min (pj + 1) (Nat.min (left + 1) (pjm1 + 1))
    cur :: edRowAux c1 cs (pj :: prest) cur

/-- The row-by-row fill of the Levenshtein matrix, carrying the row
index `i` (the value of `matrix[i][0]`). -/
def edRows (l2 : List Char) : List Char → List Nat → Nat → List Nat
  | [], prevRow, _ => prevRow
  | c1 :: cs, prevRow, i =>
    edRows l2 cs ((i + 1) :: edRowAux c1 l2 prevRow (i + 1)) (i + 1)

/-- `calculateEditDistance(str1, str2)`: the Levenshtein distance via
the dynamic-programming matrix; the answer is `matrix[len1][len2]`: the
final row (for the full `str1`) indexed at `len2`. -/
def calculateEditDistance (str1 str2 : String) : Nat :=
  (edRows str2.toList str1.toList (List.range (str2.toList.length + 1)) 0).getD
    str2.toList.length 0

/-- `Math.abs(a - b)` on lengths. -/
def absDiff (a b : Nat) : Nat :=
  max a b - min a b

/-- The candidate loop of `getSimpleSuggestions`: push candidates with
`|len(candidate) - len(word)| ≤ 2` and edit distance in `(0, 2]`,
breaking as soon as the accumulator reaches `maxSuggestions` after a
push. -/
def simpleLoop (word : String) (maxSuggestions : Nat) :
    List String → List String → List String
  | [], acc => acc
  | candidate :: cs, acc =>
    if absDiff candidate.length word.length ≤ 2 then
      let distance := calculateEditDistance word candidate
      if distance ≤ 2 ∧ 0 < distance then
        let acc := acc ++ [candidate]
        if maxSuggestions ≤ acc.length then acc else simpleLoop word maxSuggestions cs acc
      else simpleLoop word maxSuggestions cs acc
    else simpleLoop word maxSuggestions cs acc

/-- `getSimpleSuggestions(word, maxSuggestions)`. -/
def getSimpleSuggestions (word : String) (maxSuggestions : Nat) : List String :=
  simpleLoop word maxSuggestions commonWords []

/-- `getSuggestions(word, maxSuggestions = 5)`. -/
def getSuggestions (st : WState) (word : String) (maxSuggestions : Nat := 5) :
    List String :=
  match st.dictionary with
  | none => []
  | some d =>
    if word = "" then []
    else
      let lowerWord := toLowerStr word
      if st.customWords.contains lowerWord then []
      else
        let suggestions := d.suggest word
        if suggestions.length = 0 then getSimpleSuggestions lowerWord maxSuggestions
        else (suggestions.take maxSuggestions).filter
          (fun s => !(toLowerStr s == lowerWord))

/-! ## Message protocol (`self.onmessage`) -/

/-- Requests handled by the worker. -/
inductive InMsg
  | initDictionary (d : Dict)
  | addWord (word : String)
  | removeWord (word : String)
  | clearWords
  | getCacheStats
  | getSuggestionsMsg (word : String)
  | checkText (fullText : String)
  | checkIncremental (fullText : String) (regions : List Region)

/-- Responses posted by the worker (`self.postMessage`). -/
inductive OutMsg
  | dictionaryReady
  | checkResult (invalidWordsFull : List CheckEntry)
      (invalidWordsIncremental : List SpellCheckResult)
      (currentCheckCache : List (String × Bool))
  | dictionaryUpdated (action : String) (word : String)
  | cacheStats (customWordsCount : Nat)
  | suggestionsResult (word : String) (suggestions : List String)
  deriving DecidableEq

/-- `Set.add` on the custom word list. -/
def addCustom (l : List String) (w : String) : List String :=
  if l.contains w then l else l ++ [w]

/-- The worker's message dispatcher.  `CHECK_RESULT` messages carry the
full-check results in the first slot and incremental results in the
second (the source posts a single heterogeneous array). -/
def handleMessage (st : WState) : InMsg → WState × List OutMsg
  | .initDictionary d =>
    ({ st with dictionary := some d,
               checkedCache := st.checkedCache.clear,
               regionCache := st.regionCache.clear },
     [.dictionaryReady])
  | .addWord word =>
    let addedWord := toLowerStr word
    let st1 := { st with
      customWords := addCustom st.customWords addedWord,
      checkedCache := st.checkedCache.clear,
      regionCache := st.regionCache.clear,
      currentCheckCache := [] }
    if st.lastFullText = "" then (st1, [.dictionaryUpdated "ADD_WORD" word])
    else
      let r := processText st1 st.lastFullText
      (r.state,
       [.checkResult r.results [] r.state.currentCheckCache,
        .dictionaryUpdated "ADD_WORD" word])
  | .removeWord word =>
    let removedWord := toLowerStr word
    let st1 := { st with
      customWords := st.customWords.erase removedWord,
      checkedCache := st.checkedCache.clear,
      regionCache := st.regionCache.clear,
      currentCheckCache := [] }
    if st.lastFullText = "" then (st1, [.dictionaryUpdated "REMOVE_WORD" word])
    else
      let r := processText st1 st.lastFullText
      (r.state,
       [.checkResult r.results [] r.state.currentCheckCache,
        .dictionaryUpdated "REMOVE_WORD" word])
  | .clearWords =>
    ({ st with customWords := [],
               checkedCache := st.checkedCache.clear,
               regionCache := st.regionCache.clear },
     [])
  | .getCacheStats => (st, [.cacheStats st.customWords.length])
  | .getSuggestionsMsg word =>
    (st, [.suggestionsResult word (getSuggestions st word)])
  | .checkText fullText =>
    let r := processText st fullText
    ({ r.state with lastFullText := fullText },
     [.checkResult r.results [] r.state.currentCheckCache])
  | .checkIncremental fullText regions =>
    let r := processIncrementalText st fullText regions
    ({ r.state with lastFullText := fullText },
     [.checkResult [] r.results r.state.currentCheckCache])

/-! ## Diff regions (`src/utils/index.ts`) -/

/-- A text change found by `calculateTextChanges`. -/
structure TextChange where
  type : String
  start : Nat
  «end» : Nat
  text : String
  oldText : String
  deriving DecidableEq, Repr

/-- Length of the common prefix of two character lists. -/
def commonPrefixLen : List Char → List Char → Nat
  | a :: as, b :: bs => if a = b then commonPrefixLen as bs + 1 else 0
  | _, _ => 0

/-- `calculateTextChanges(oldText, newText)`: trim the common prefix,
then trim the common suffix of what remains (the `while` loops of the
source; the suffix loop compares trailing characters while both ends
stay above `start`, which is the common prefix of the reversed
remainders). -/
def calculateTextChanges (oldText newText : String) : List TextChange :=
  let lo := oldText.toList
  let ln := newText.toList
  let start := commonPrefixLen lo ln
  let s := commonPrefixLen (lo.drop start).reverse (ln.drop start).reverse
  let oldEnd := lo.length - s
  let newEnd := ln.length - s
  if start < oldEnd ∨ start < newEnd then
    [⟨"replace", start, newEnd, sliceStr newText start newEnd,
      sliceStr oldText start oldEnd⟩]
  else []

/-- `expandRegionWithContext(text, start, end, contextWords)`: widen the
changed span to whole words plus `contextWords` word indices each side.
`findIndex`'s `-1` results are replaced by `words.length` as in the
source; `Math.max(0, ·)` is Nat subtraction. -/
def expandRegionWithContext (text : String) (start «end» : Nat)
    (contextWords : Nat) : Region :=
  let words := tokenize text
  let startWordIndex := (words.findIdx? (fun w => decide (start < w.«end»))).getD words.length
  let endWordIndex := (words.findIdx? (fun w => decide («end» ≤ w.start))).getD words.length
  let expandedStartIndex := startWordIndex - contextWords
  let expandedEndIndex := Nat.min words.length (endWordIndex + contextWords)
  let expandedStart := match words.get? expandedStartIndex with
    | some w => w.start
    | none => start
  let expandedEnd :=
    if 0 < expandedEndIndex then
      match words.get? (expandedEndIndex - 1) with
      | some w => w.«end»
      | none => «end»
    else «end»
  ⟨expandedStart, expandedEnd, sliceStr text expandedStart expandedEnd⟩

/-- The fold of `mergeOverlappingRegions`: the head of the accumulator
is the last region of the `merged` array; overlapping regions mutate it
in place with
`last.text = last.text.slice(0, last.start) + current.text.slice(0, current.end - last.start)`. -/
def mergeFold : List Region → List Region → List Region
  | acc, [] => acc.reverse
  | [], current :: rest => mergeFold [current] rest
  | last :: accRest, current :: rest =>
    if current.start ≤ last.«end» then
      mergeFold
        ({ start := last.start,
           «end» := Nat.max last.«end» current.«end»,
           text := takeStr last.text last.start ++
             takeStr current.text (current.«end» - last.start) } :: accRest)
        rest
    else mergeFold (current :: last :: accRest) rest

/-- Stable insertion into a list sorted by `start` (new element after
existing elements with the same `start`). -/
def insertByStart (r : Region) : List Region → List Region
  | [] => [r]
  | x :: xs => if x.start ≤ r.start then x :: insertByStart r xs else r :: x :: xs

/-- `regions.sort((a, b) => a.start - b.start)`: a stable sort by
`start`, as JavaScript's `Array.prototype.sort`. -/
def sortByStart (l : List Region) : List Region :=
  l.foldl (fun acc r => insertByStart r acc) []

/-- `mergeOverlappingRegions(regions)`: sort by `start`, then fold
overlapping spans into the last merged region. -/
def mergeOverlappingRegions (regions : List Region) : List Region :=
  if regions.length ≤ 1 then regions
  else
    match sortByStart regions with
    | [] => []
    | r0 :: rest => mergeFold [r0] rest

/-- `calculateIncrementalCheckRegions(oldText, newText, contextWords = 2)`. -/
def calculateIncrementalCheckRegions (oldText newText : String)
    (contextWords : Nat := 2) : List Region :=
  if oldText = "" ∨ newText = "" then
    [⟨0, newText.toList.length, newText⟩]
  else
    let changes := calculateTextChanges oldText newText
    if changes.length = 0 then []
    else
      mergeOverlappingRegions (changes.map (fun change =>
        expandRegionWithContext newText change.start change.«end» contextWords))

/-! ## CustomDictionary (`customDictionary.ts`) -/

/-- The custom dictionary manager's state: its word set (a list without
duplicates, in insertion order) and capacity. -/
structure CustomDictionary where
  words : List String
  maxWords : Nat
  deriving DecidableEq, Repr

/-- `CustomDictionary.addWord(word)`: returns whether the word was
added, together with the updated dictionary.  The worker sync and
storage side effects are external and not modelled. -/
def CustomDictionary.addWord (d : CustomDictionary) (word : String) :
    Bool × CustomDictionary :=
  if word = "" then (false, d)
  else
    let normalizedWord := trimStr (toLowerStr word)
    if normalizedWord = "" ∨ normalizedWord.length < 2 then (false, d)
    else if d.maxWords ≤ d.words.length ∧ ¬d.words.contains normalizedWord then
      (false, d)
    else
      let wasAdded := ¬d.words.contains normalizedWord
      (wasAdded,
       { d with words := if d.words.contains normalizedWord then d.words
                         else d.words ++ [normalizedWord] })

/-! ## Concrete test dictionaries -/

/-- A dictionary rejecting every word (and yielding no suggestions). -/
def rejectAllDict : Dict := ⟨fun _ => false, fun _ => []⟩

/-- A dictionary accepting every word (and yielding no suggestions). -/
def acceptAllDict : Dict := ⟨fun _ => true, fun _ => []⟩

end SpellWorker

namespace SpellWorker

/-! ## LRU cache: value-predicate preservation lemmas -/

theorem removeKey_subset {K V : Type} [DecidableEq K] (l : List (K × V)) (k : K) :
    ∀ q ∈ removeKey l k, q ∈ l := by
  induction l with
  | nil => intro q hq; simp [removeKey] at hq
  | cons p ps ih =>
    intro q hq
    by_cases hpk : p.1 = k
    · simp [removeKey, hpk] at hq
      exact List.mem_cons_of_mem _ hq
    · simp [removeKey, hpk] at hq
      rcases hq with hq | hq
      · exact hq ▸ List.mem_cons_self _ _
      · exact List.mem_cons_of_mem _ (ih q hq)

theorem lru_has_of_find_none {K V : Type} [DecidableEq K] {c : LRUCache K V}
    {k : K} (hfind : c.entries.find? (fun p => decide (p.1 = k)) = none) :
    c.has k = false := by
  unfold LRUCache.has; rw [hfind]; rfl

theorem lru_has_of_find_some {K V : Type} [DecidableEq K] {c : LRUCache K V}
    {k : K} {p : K × V}
    (hfind : c.entries.find? (fun p => decide (p.1 = k)) = some p) :
    c.has k = true := by
  unfold LRUCache.has; rw [hfind]; rfl

theorem lru_get_of_find_none {K V : Type} [DecidableEq K] {c : LRUCache K V}
    {k : K} (hfind : c.entries.find? (fun p => decide (p.1 = k)) = none) :
    c.get k = (none, c) := by
  unfold LRUCache.get; rw [hfind]

theorem lru_get_of_find_some {K V : Type} [DecidableEq K] {c : LRUCache K V}
    {k : K} {p : K × V}
    (hfind : c.entries.find? (fun p => decide (p.1 = k)) = some p) :
    c.get k = (some p.2, ⟨c.capacity, (k, p.2) :: removeKey c.entries k⟩) := by
  unfold LRUCache.get; rw [hfind]

theorem lru_get_fst_prop {K V : Type} [DecidableEq K] {c : LRUCache K V}
    {k : K} {v : V} (Pv : V → Prop) (hall : ∀ p ∈ c.entries, Pv p.2)
    (hget : (c.get k).1 = some v) : Pv v := by
  unfold LRUCache.get at hget
  cases hfind : c.entries.find? (fun p => decide (p.1 = k)) with
  | none => rw [hfind] at hget; simp at hget
  | some p =>
    rw [hfind] at hget
    simp at hget
    exact hget ▸ hall p (List.mem_of_find?_eq_some hfind)

theorem lru_get_pres {K V : Type} [DecidableEq K] {c : LRUCache K V}
    {k : K} (Pv : V → Prop) (hall : ∀ p ∈ c.entries, Pv p.2) :
    ∀ q ∈ ((c.get k).2).entries, Pv q.2 := by
  unfold LRUCache.get
  cases hfind : c.entries.find? (fun p => decide (p.1 = k)) with
  | none => simpa using hall
  | some p =>
    intro q hq
    simp at hq
    rcases hq with hq | hq
    · have hp := hall p (List.mem_of_find?_eq_some hfind)
      rw [hq]; exact hp
    · exact hall q (removeKey_subset _ _ q hq)

theorem lru_set_pres {K V : Type} [DecidableEq K] {c : LRUCache K V}
    {k : K} {v : V} (Pv : V → Prop) (hv : Pv v)
    (hall : ∀ p ∈ c.entries, Pv p.2) :
    ∀ q ∈ (c.set k v).entries, Pv q.2 := by
  unfold LRUCache.set
  by_cases hhas : c.has k
  · intro q hq
    simp [hhas] at hq
    rcases hq with hq | hq
    · rw [hq]; exact hv
    · exact hall q (removeKey_subset _ _ q hq)
  · intro q hq
    simp only [hhas, if_false, Bool.false_eq_true] at hq
    have hq' : q ∈ (k, v) :: c.entries := by
      split at hq
      · exact List.dropLast_subset _ hq
      · exact hq
    rcases List.mem_cons.mp hq' with hq'' | hq''
    · rw [hq'']; exact hv
    · exact hall q hq''

/-! ## C5: uninitialized dictionary -/

/-- `checkWord` with no dictionary always answers valid, without calls. -/
theorem checkWord_none {st : WState} (h : st.dictionary = none) (lw : String) :
    checkWord st lw = (true, []) := by
  unfold checkWord
  rw [h]
  split <;> rfl

/-- Invariant of the C5 proofs over the full-check loop: dictionary
absent and only `true` verdicts cached. -/
def AllValidAcc (acc : PTAcc) : Prop :=
  acc.state.dictionary = none ∧ ∀ p ∈ acc.state.checkedCache.entries, p.2 = true

theorem processWord_all_valid {acc : PTAcc} (h : AllValidAcc acc) (tok : Token) :
    (processWord acc tok).results = acc.results ∧ AllValidAcc (processWord acc tok) := by
  obtain ⟨hdict, hall⟩ := h
  unfold processWord
  cases hfind : acc.state.checkedCache.entries.find?
      (fun p => decide (p.1 = toLowerStr tok.word)) with
  | some p =>
    have hp : p.2 = true := hall p (List.mem_of_find?_eq_some hfind)
    rw [if_pos (lru_has_of_find_some hfind), lru_get_of_find_some hfind, hp]
    dsimp only
    refine ⟨rfl, hdict, ?_⟩
    have := @lru_get_pres String Bool _ acc.state.checkedCache
      (toLowerStr tok.word) (fun v => v = true) hall
    rw [lru_get_of_find_some hfind, hp] at this
    exact this
  | none =>
    rw [if_neg (by simp [lru_has_of_find_none hfind]), checkWord_none hdict]
    dsimp only
    rw [if_pos rfl]
    exact ⟨rfl, hdict, lru_set_pres (fun v => v = true) rfl hall⟩

theorem foldl_processWord_all_valid (toks : List Token) :
    ∀ acc : PTAcc, AllValidAcc acc →
      (toks.foldl processWord acc).results = acc.results ∧
        AllValidAcc (toks.foldl processWord acc) := by
  induction toks with
  | nil => intro acc h; exact ⟨rfl, h⟩
  | cons tok toks ih =>
    intro acc h
    have hstep := processWord_all_valid h tok
    have hrest := ih (processWord acc tok) hstep.2
    simp only [List.foldl_cons]
    exact ⟨hrest.1.trans hstep.1, hrest.2⟩

/-- Invariant of the C5 proofs over the incremental loop: additionally,
every cached region entry has an empty result list. -/
def AllValidIT (acc : ITAcc) : Prop :=
  acc.state.dictionary = none ∧
    (∀ p ∈ acc.state.checkedCache.entries, p.2 = true) ∧
    ∀ p ∈ acc.state.regionCache.entries, p.2.results = []

def AllValidReg (acc : RegAcc) : Prop :=
  acc.state.dictionary = none ∧
    (∀ p ∈ acc.state.checkedCache.entries, p.2 = true) ∧
    ∀ p ∈ acc.state.regionCache.entries, p.2.results = []

theorem processRegionWord_all_valid {acc : RegAcc} (h : AllValidReg acc)
    (rs : Nat) (tok : Token) :
    (processRegionWord rs acc tok).results = acc.results ∧
      (processRegionWord rs acc tok).regionResults = acc.regionResults ∧
      AllValidReg (processRegionWord rs acc tok) := by
  obtain ⟨hdict, hall, hreg⟩ := h
  unfold processRegionWord
  cases hfind : acc.state.checkedCache.entries.find?
      (fun p => decide (p.1 = toLowerStr tok.word)) with
  | some p =>
    have hp : p.2 = true := hall p (List.mem_of_find?_eq_some hfind)
    dsimp only
    rw [if_pos (lru_has_of_find_some hfind), lru_get_of_find_some hfind, hp]
    dsimp only
    refine ⟨rfl, rfl, hdict, ?_, hreg⟩
    have := @lru_get_pres String Bool _ acc.state.checkedCache
      (toLowerStr tok.word) (fun v => v = true) hall
    rw [lru_get_of_find_some hfind, hp] at this
    exact this
  | none =>
    dsimp only
    rw [if_neg (by simp [lru_has_of_find_none hfind]), checkWord_none hdict]
    dsimp only
    rw [if_pos rfl]
    exact ⟨rfl, rfl, hdict, lru_set_pres (fun v => v = true) rfl hall, hreg⟩

theorem foldl_processRegionWord_all_valid (rs : Nat) (toks : List Token) :
    ∀ acc : RegAcc, AllValidReg acc →
      (toks.foldl (processRegionWord rs) acc).results = acc.results ∧
        (toks.foldl (processRegionWord rs) acc).regionResults = acc.regionResults ∧
        AllValidReg (toks.foldl (processRegionWord rs) acc) := by
  induction toks with
  | nil => intro acc h; exact ⟨rfl, rfl, h⟩
  | cons tok toks ih =>
    intro acc h
    have hstep := processRegionWord_all_valid h rs tok
    have hrest := ih (processRegionWord rs acc tok) hstep.2.2
    simp only [List.foldl_cons]
    exact ⟨hrest.1.trans hstep.1, hrest.2.1.trans hstep.2.1, hrest.2.2⟩

theorem processRegionStep_all_valid {acc : ITAcc} (h : AllValidIT acc)
    (region : Region) :
    (processRegionStep acc region).results = acc.results ∧
      AllValidIT (processRegionStep acc region) := by
  obtain ⟨hdict, hall, hreg⟩ := h
  have hpres : ∀ q ∈ ((acc.state.regionCache.get (regionKey region)).2).entries,
      q.2.results = [] := lru_get_pres (fun v : RegionEntry => v.results = []) hreg
  have hinner := foldl_processRegionWord_all_valid region.start
    (tokenize region.text)
    ⟨[], [], acc.results,
      { acc.state with
        regionCache := (acc.state.regionCache.get (regionKey region)).2 },
      acc.calls⟩
    ⟨hdict, hall, hpres⟩
  obtain ⟨hres, hregres, hd', hall', hreg'⟩ := hinner
  unfold processRegionStep
  dsimp only
  cases hget : (acc.state.regionCache.get (regionKey region)).1 with
  | some cached =>
    have hcres : cached.results = [] :=
      lru_get_fst_prop (fun v : RegionEntry => v.results = []) hreg hget
    dsimp only
    by_cases hfresh : regionEntryFresh cached region.text
    · rw [if_pos hfresh]
      exact ⟨by simp [hcres], hdict, hall, hpres⟩
    · rw [if_neg hfresh]
      exact ⟨hres, hd', hall',
        lru_set_pres (fun v : RegionEntry => v.results = []) hregres hreg'⟩
  | none =>
    dsimp only
    exact ⟨hres, hd', hall',
      lru_set_pres (fun v : RegionEntry => v.results = []) hregres hreg'⟩

theorem foldl_processRegionStep_all_valid (regions : List Region) :
    ∀ acc : ITAcc, AllValidIT acc →
      (regions.foldl processRegionStep acc).results = acc.results ∧
        AllValidIT (regions.foldl processRegionStep acc) := by
  induction regions with
  | nil => intro acc h; exact ⟨rfl, h⟩
  | cons r regions ih =>
    intro acc h
    have hstep := processRegionStep_all_valid h r
    have hrest := ih (processRegionStep acc r) hstep.2
    simp only [List.foldl_cons]
    exact ⟨hrest.1.trans hstep.1, hrest.2⟩

/-- C5: confirmed.  While the dictionary is uninitialized
(`dictionary = null`), `customWords.has(w) || (dictionary?.check(w) ?? true)`
is `true` for every word, so for every input text a full check — and,
for every region list, an incremental check — started from empty word
and region caches reports no invalid words at all. -/
theorem c5_uninitialized_dictionary_reports_nothing
    (cw : List String) (t : String) (rs : List Region) :
    (processText (mkState none cw) t).results = [] ∧
    (processIncrementalText (mkState none cw) t rs).results = [] := by
  constructor
  · exact (foldl_processWord_all_valid (tokenize t) ⟨[], mkState none cw, []⟩
      ⟨rfl, by intro p hp; simp [mkState, LRUCache.empty] at hp⟩).1
  · exact (foldl_processRegionStep_all_valid rs
      ⟨[], { mkState none cw with currentCheckCache := [] }, []⟩
      ⟨rfl, by intro p hp; simp [mkState, LRUCache.empty] at hp,
        by intro p hp; simp [mkState, LRUCache.empty] at hp⟩).1

/-! ## Edit distance lower bound and the suggestion loop -/

theorem edRowAux_length (c1 : Char) :
    ∀ (cs : List Char) (prow : List Nat) (left : Nat),
      prow.length = cs.length + 1 →
      (edRowAux c1 cs prow left).length = cs.length := by
  intro cs
  induction cs with
  | nil => intro prow left _; rfl
  | cons c2 cs ih =>
    intro prow left hlen
    match prow, hlen with
    | pjm1 :: pj :: prest, hlen =>
      simp only [edRowAux, List.length_cons]
      rw [ih (pj :: prest) _ (by simp only [List.length_cons] at hlen ⊢; omega)]

theorem edRowAux_bounds (c1 : Char) :
    ∀ (cs : List Char) (prow : List Nat) (left i j0 : Nat),
      prow.length = cs.length + 1 →
      (∀ jj, jj ≤ cs.length →
        i - (j0 + jj) ≤ prow.getD jj 0 ∧ (j0 + jj) - i ≤ prow.getD jj 0) →
      (i + 1) - j0 ≤ left → j0 - (i + 1) ≤ left →
      ∀ jj, jj < cs.length →
        (i + 1) - (j0 + 1 + jj) ≤ (edRowAux c1 cs prow left).getD jj 0 ∧
          (j0 + 1 + jj) - (i + 1) ≤ (edRowAux c1 cs prow left).getD jj 0 := by
  intro cs
  induction cs with
  | nil => intro _ _ _ _ _ _ _ _ jj hjj; simp at hjj
  | cons c2 cs ih =>
    intro prow left i j0 hlen hprev hl1 hl2 jj hjj
    match prow, hlen with
    | pjm1 :: pj :: prest, hlen =>
      have hp0 := hprev 0 (by omega)
      have hp1 := hprev 1 (by simp only [List.length_cons]; omega)
      simp only [List.getD_cons_zero, List.getD_cons_succ] at hp0 hp1
      have hcur :
          (i + 1) - (j0 + 1) ≤
            (if c1 = c2 then pjm1
             else Nat.min (pj + 1) (Nat.min (left + 1) (pjm1 + 1))) ∧
          (j0 + 1) - (i + 1) ≤
            (if c1 = c2 then pjm1
             else Nat.min (pj + 1) (Nat.min (left + 1) (pjm1 + 1))) := by
        by_cases hc : c1 = c2
        · rw [if_pos hc]; omega
        · rw [if_neg hc]
          constructor <;> · rw [Nat.le_min, Nat.le_min]; omega
      match jj, hjj with
      | 0, _ =>
        simpa only [edRowAux, List.getD_cons_zero] using hcur
      | jj + 1, hjj =>
        have hrec := ih (pj :: prest)
          (if c1 = c2 then pjm1
           else Nat.min (pj + 1) (Nat.min (left + 1) (pjm1 + 1)))
          i (j0 + 1)
          (by simp only [List.length_cons] at hlen ⊢; omega)
          (by
            intro jj' hjj'
            have := hprev (jj' + 1) (by simp only [List.length_cons]; omega)
            simp only [List.getD_cons_succ] at this
            constructor <;> · have h1 := this.1; have h2 := this.2; omega)
          hcur.1 hcur.2 jj (by simp only [List.length_cons] at hjj; omega)
        simp only [edRowAux, List.getD_cons_succ]
        constructor <;>
          · first
            | exact le_trans (by omega) hrec.1
            | (have h1 := hrec.1; have h2 := hrec.2; omega)

theorem edRows_spec (l2 : List Char) :
    ∀ (cs1 : List Char) (prow : List Nat) (i : Nat),
      prow.length = l2.length + 1 →
      (∀ jj, jj ≤ l2.length →
        i - jj ≤ prow.getD jj 0 ∧ jj - i ≤ prow.getD jj 0) →
      (edRows l2 cs1 prow i).length = l2.length + 1 ∧
        ∀ jj, jj ≤ l2.length →
          (i + cs1.length) - jj ≤ (edRows l2 cs1 prow i).getD jj 0 ∧
            jj - (i + cs1.length) ≤ (edRows l2 cs1 prow i).getD jj 0 := by
  intro cs1
  induction cs1 with
  | nil =>
    intro prow i hlen hprev
    exact ⟨hlen, by simpa using hprev⟩
  | cons c1 cs1 ih =>
    intro prow i hlen hprev
    have hrlen : ((i + 1) :: edRowAux c1 l2 prow (i + 1)).length = l2.length + 1 := by
      simp only [List.length_cons, edRowAux_length c1 l2 prow (i + 1) hlen]
    have hrbounds : ∀ jj, jj ≤ l2.length →
        (i + 1) - jj ≤ ((i + 1) :: edRowAux c1 l2 prow (i + 1)).getD jj 0 ∧
          jj - (i + 1) ≤ ((i + 1) :: edRowAux c1 l2 prow (i + 1)).getD jj 0 := by
      intro jj hjj
      match jj with
      | 0 => simp [List.getD_cons_zero]
      | jj + 1 =>
        have := edRowAux_bounds c1 l2 prow (i + 1) i 0 hlen
          (by intro jj' hjj'; simpa using hprev jj' hjj')
          (by omega) (by omega) jj (by omega)
        simp only [List.getD_cons_succ]
        constructor <;> · have h1 := this.1; have h2 := this.2; omega
    have := ih ((i + 1) :: edRowAux c1 l2 prow (i + 1)) (i + 1) hrlen hrbounds
    refine ⟨?_, ?_⟩
    · simpa [edRows] using this.1
    · intro jj hjj
      have h := this.2 jj hjj
      have h1 := h.1
      have h2 := h.2
      simp only [edRows, List.length_cons]
      constructor <;> omega

theorem absDiff_comm (a b : Nat) : absDiff a b = absDiff b a := by
  unfold absDiff
  rw [max_comm, min_comm]

/-- The Levenshtein distance is at least the length difference. -/
theorem calculateEditDistance_ge (s1 s2 : String) :
    absDiff s1.length s2.length ≤ calculateEditDistance s1 s2 := by
  have hbase : ∀ jj, jj ≤ s2.toList.length →
      0 - jj ≤ (List.range (s2.toList.length + 1)).getD jj 0 ∧
        jj - 0 ≤ (List.range (s2.toList.length + 1)).getD jj 0 := by
    intro jj hjj
    rw [List.getD_eq_getElem?_getD, List.getElem?_range (by omega)]
    simp
  have h := (edRows_spec s2.toList s1.toList
    (List.range (s2.toList.length + 1)) 0
    (by simp) hbase).2 s2.toList.length (le_refl _)
  have hl1 : s1.length = s1.toList.length := rfl
  have hl2 : s2.length = s2.toList.length := rfl
  unfold calculateEditDistance absDiff
  have h1 := h.1
  have h2 := h.2
  rw [hl1, hl2]
  rcases Nat.le_total s1.toList.length s2.toList.length with hle | hle
  · rw [Nat.max_eq_right hle, Nat.min_eq_left hle]
    omega
  · rw [Nat.max_eq_left hle, Nat.min_eq_right hle]
    omega

/-- The candidate loop is take-after-filter: the length prefilter is
subsumed by the distance bound. -/
theorem simpleLoop_take_filter :
    ∀ (cs : List String) (word : String) (maxSuggestions : Nat) (acc : List String),
      acc.length < maxSuggestions →
      simpleLoop word maxSuggestions cs acc =
        acc ++ (cs.filter (fun c =>
          decide (0 < calculateEditDistance word c ∧
            calculateEditDistance word c ≤ 2))).take (maxSuggestions - acc.length) := by
  intro cs
  induction cs with
  | nil => intro word m acc _; simp [simpleLoop]
  | cons c cs ih =>
    intro word m acc hacc
    by_cases hlen : absDiff c.length word.length ≤ 2
    · by_cases hdist : calculateEditDistance word c ≤ 2 ∧ 0 < calculateEditDistance word c
      · have hpred : (fun c => decide (0 < calculateEditDistance word c ∧
            calculateEditDistance word c ≤ 2)) c = true := by
          simp only [decide_eq_true_eq]
          exact ⟨hdist.2, hdist.1⟩
        simp only [simpleLoop, if_pos hlen, if_pos hdist, List.filter_cons, hpred,
          if_pos]
        by_cases hstop : m ≤ (acc ++ [c]).length
        · rw [if_pos hstop]
          have : m - acc.length = 1 := by
            simp only [List.length_append, List.length_singleton] at hstop
            omega
          rw [this]
          simp [List.take]
        · rw [if_neg hstop]
          have hlt : (acc ++ [c]).length < m := by omega
          rw [ih word m (acc ++ [c]) hlt]
          have : m - acc.length = (m - (acc ++ [c]).length) + 1 := by
            simp only [List.length_append, List.length_singleton]
            simp only [List.length_append, List.length_singleton] at hstop
            omega
          rw [this]
          simp [List.take_succ_cons, List.append_assoc]
      · have hpred : (fun c => decide (0 < calculateEditDistance word c ∧
            calculateEditDistance word c ≤ 2)) c = false := by
          simp only [decide_eq_false_iff_not]
          intro hcon
          exact hdist ⟨hcon.2, hcon.1⟩
        simp only [simpleLoop, if_pos hlen, if_neg hdist, List.filter_cons, hpred,
          Bool.false_eq_true, if_false]
        exact ih word m acc hacc
    · have hge : 2 < calculateEditDistance word c := by
        have hd := calculateEditDistance_ge word c
        rw [absDiff_comm] at hlen
        unfold absDiff at hlen hd
        rcases Nat.le_total word.length c.length with hle | hle
        · rw [Nat.max_eq_right hle, Nat.min_eq_left hle] at hlen hd
          omega
        · rw [Nat.max_eq_left hle, Nat.min_eq_right hle] at hlen hd
          omega
      have hpred : (fun c => decide (0 < calculateEditDistance word c ∧
          calculateEditDistance word c ≤ 2)) c = false := by
        simp only [decide_eq_false_iff_not]
        intro hcon
        omega
      simp only [simpleLoop, if_neg hlen, List.filter_cons, hpred,
        Bool.false_eq_true, if_false]
      exact ih word m acc hacc

/-! ## C9: suggestion fallback -/

/-- C9: confirmed.  When the dictionary yields no native suggestions for
a (non-empty) word not in the custom word set, the fallback returns the
first `max` entries of the fixed reference list whose Levenshtein
distance to the lowercased input is between 1 and 2, in the reference
list's order (so at most `max` candidates, first match wins, no
secondary sort); and for every word whose lowercased form is in the
custom word set the suggestion operation returns the empty list. -/
theorem c9_suggestion_fallback (st : WState) (word : String) (maxSuggestions : Nat) :
    (∀ d : Dict, st.dictionary = some d → d.suggest word = [] →
      st.customWords.contains (toLowerStr word) = false → word ≠ "" →
      1 ≤ maxSuggestions →
      getSuggestions st word maxSuggestions =
        (commonWords.filter (fun c =>
          decide (0 < calculateEditDistance (toLowerStr word) c ∧
            calculateEditDistance (toLowerStr word) c ≤ 2))).take maxSuggestions ∧
      (getSuggestions st word maxSuggestions).length ≤ maxSuggestions) ∧
    (st.customWords.contains (toLowerStr word) = true →
      getSuggestions st word maxSuggestions = []) := by
  constructor
  · intro d hdict hno hcw hword hmax
    have heq : getSuggestions st word maxSuggestions =
        (commonWords.filter (fun c =>
          decide (0 < calculateEditDistance (toLowerStr word) c ∧
            calculateEditDistance (toLowerStr word) c ≤ 2))).take maxSuggestions := by
      unfold getSuggestions
      rw [hdict]
      dsimp only
      rw [if_neg hword]
      rw [if_neg (by rw [hcw]; exact Bool.false_ne_true), hno]
      rw [if_pos (show ([] : List String).length = 0 from rfl)]
      unfold getSimpleSuggestions
      rw [simpleLoop_take_filter commonWords (toLowerStr word) maxSuggestions []
        (by simpa using hmax)]
      simp
    refine ⟨heq, ?_⟩
    rw [heq]
    exact List.length_take_le _ _
  · intro hcw
    unfold getSuggestions
    cases hdict : st.dictionary with
    | none => rfl
    | some d =>
      dsimp only
      by_cases hword : word = ""
      · rw [if_pos hword]
      · rw [if_neg hword]
        rw [if_pos (by rw [hcw])]

/-- Witness for C9: with a dictionary giving no native suggestions, the
word `"wrold"` (custom set `{"zzqq"}`, max 5) is served by the fallback,
and `"zzqq"` itself gets no suggestions. -/
theorem c9_suggestion_fallback_witness :
    (getSuggestions (mkState (some acceptAllDict) ["zzqq"]) "wrold" 5 =
      (commonWords.filter (fun c =>
        decide (0 < calculateEditDistance (toLowerStr "wrold") c ∧
          calculateEditDistance (toLowerStr "wrold") c ≤ 2))).take 5 ∧
      (getSuggestions (mkState (some acceptAllDict) ["zzqq"]) "wrold" 5).length ≤ 5) ∧
    getSuggestions (mkState (some acceptAllDict) ["zzqq"]) "zzqq" 5 = [] :=
  ⟨(c9_suggestion_fallback (mkState (some acceptAllDict) ["zzqq"]) "wrold" 5).1
     acceptAllDict rfl rfl (by decide) (by decide) (by decide),
   (c9_suggestion_fallback (mkState (some acceptAllDict) ["zzqq"]) "zzqq" 5).2
     (by decide)⟩

/-! ## C10: CustomDictionary.addWord -/

/-- C10: confirmed.  `CustomDictionary.addWord` returns `false` and
leaves the dictionary unchanged when the input is the empty string, when
its lowercased-and-trimmed form is empty or shorter than 2 characters,
or when the set already holds at least `maxWords` entries and does not
contain the normalized word; and whenever it returns `true`, the
normalized word was absent and exactly it has been appended to the word
set (capacity unchanged). -/
theorem c10_addWord_contract (d : CustomDictionary) (w : String) :
    (w = "" → d.addWord w = (false, d)) ∧
    (trimStr (toLowerStr w) = "" ∨ (trimStr (toLowerStr w)).length < 2 →
      d.addWord w = (false, d)) ∧
    (d.maxWords ≤ d.words.length → ¬d.words.contains (trimStr (toLowerStr w)) →
      d.addWord w = (false, d)) ∧
    ((d.addWord w).1 = true →
      ¬d.words.contains (trimStr (toLowerStr w)) ∧
      (d.addWord w).2.words = d.words ++ [trimStr (toLowerStr w)] ∧
      (d.addWord w).2.maxWords = d.maxWords) := by
  unfold CustomDictionary.addWord
  by_cases hw : w = ""
  · refine ⟨fun _ => by rw [if_pos hw], fun _ => by rw [if_pos hw],
      fun _ _ => by rw [if_pos hw], fun h => ?_⟩
    rw [if_pos hw] at h
    simp at h
  · rw [if_neg hw]
    dsimp only
    by_cases hshort : trimStr (toLowerStr w) = "" ∨ (trimStr (toLowerStr w)).length < 2
    · rw [if_pos hshort]
      exact ⟨fun h => absurd h hw, fun _ => rfl, fun _ _ => rfl, fun h => by simp at h⟩
    · rw [if_neg hshort]
      by_cases hfull : d.maxWords ≤ d.words.length ∧
          ¬d.words.contains (trimStr (toLowerStr w))
      · rw [if_pos hfull]
        exact ⟨fun h => absurd h hw, fun h => absurd h hshort,
          fun _ _ => rfl, fun h => by simp at h⟩
      · rw [if_neg hfull]
        refine ⟨fun h => absurd h hw, fun h => absurd h hshort,
          fun h1 h2 => absurd ⟨h1, h2⟩ hfull, fun h => ?_⟩
        dsimp only at h
        by_cases hmem : d.words.contains (trimStr (toLowerStr w))
        · simp only [hmem, decide_eq_true_eq] at h
          exact absurd trivial h
        · refine ⟨hmem, ?_, rfl⟩
          dsimp only
          rw [if_neg hmem]

/-- Witness for C10 at concrete inputs: `"  Hello "` is added (as
`"hello"`) to an empty 10-word dictionary, and the empty string is
rejected. -/
theorem c10_addWord_contract_witness :
    (¬(([] : List String).contains (trimStr (toLowerStr "  Hello "))) ∧
      ((⟨[], 10⟩ : CustomDictionary).addWord "  Hello ").2.words =
        [] ++ [trimStr (toLowerStr "  Hello ")] ∧
      ((⟨[], 10⟩ : CustomDictionary).addWord "  Hello ").2.maxWords = 10) ∧
    (⟨["aa"], 1⟩ : CustomDictionary).addWord "bb" = (false, ⟨["aa"], 1⟩) ∧
    (⟨["aa"], 1⟩ : CustomDictionary).addWord "" = (false, ⟨["aa"], 1⟩) :=
  ⟨(c10_addWord_contract ⟨[], 10⟩ "  Hello ").2.2.2 (by decide),
   (c10_addWord_contract ⟨["aa"], 1⟩ "bb").2.2.1 (by decide) (by decide),
   (c10_addWord_contract ⟨["aa"], 1⟩ "").1 rfl⟩

/-! ## C3 (amended): mutations, cache clearing and recheck -/

/-- C3, amended: confirmed for `ADD_WORD` and `REMOVE_WORD` and
corrected for `CLEAR_WORDS`.  `CLEAR_WORDS` empties the custom word set
and both caches and posts nothing.  `ADD_WORD`/`REMOVE_WORD`, when the
saved last full text is non-empty, post exactly a `CHECK_RESULT` whose
payload is the full check of that text run from a state whose word and
region caches are cleared (and with the custom-word mutation applied),
followed by `DICTIONARY_UPDATED`; when the saved text is empty they post
only `DICTIONARY_UPDATED`. -/
theorem c3_mutations_cache_behavior (st : WState) (w : String) :
    ((handleMessage st .clearWords).1.checkedCache.entries = [] ∧
     (handleMessage st .clearWords).1.regionCache.entries = [] ∧
     (handleMessage st .clearWords).1.customWords = [] ∧
     (handleMessage st .clearWords).2 = []) ∧
    (st.lastFullText ≠ "" →
      ∃ stc : WState,
        stc.checkedCache.entries = [] ∧ stc.regionCache.entries = [] ∧
        stc.currentCheckCache = [] ∧
        stc.customWords = addCustom st.customWords (toLowerStr w) ∧
        stc.dictionary = st.dictionary ∧
        (handleMessage st (.addWord w)).2 =
          [.checkResult (processText stc st.lastFullText).results []
             (processText stc st.lastFullText).state.currentCheckCache,
           .dictionaryUpdated "ADD_WORD" w]) ∧
    (st.lastFullText ≠ "" →
      ∃ stc : WState,
        stc.checkedCache.entries = [] ∧ stc.regionCache.entries = [] ∧
        stc.currentCheckCache = [] ∧
        stc.customWords = st.customWords.erase (toLowerStr w) ∧
        stc.dictionary = st.dictionary ∧
        (handleMessage st (.removeWord w)).2 =
          [.checkResult (processText stc st.lastFullText).results []
             (processText stc st.lastFullText).state.currentCheckCache,
           .dictionaryUpdated "REMOVE_WORD" w]) ∧
    (st.lastFullText = "" →
      (handleMessage st (.addWord w)).2 = [.dictionaryUpdated "ADD_WORD" w] ∧
      (handleMessage st (.removeWord w)).2 = [.dictionaryUpdated "REMOVE_WORD" w]) := by
  refine ⟨⟨rfl, rfl, rfl, rfl⟩, ?_, ?_, ?_⟩
  · intro hne
    refine ⟨{ st with
        customWords := addCustom st.customWords (toLowerStr w),
        checkedCache := st.checkedCache.clear,
        regionCache := st.regionCache.clear,
        currentCheckCache := [] }, rfl, rfl, rfl, rfl, rfl, ?_⟩
    simp only [handleMessage]
    rw [if_neg hne]
  · intro hne
    refine ⟨{ st with
        customWords := st.customWords.erase (toLowerStr w),
        checkedCache := st.checkedCache.clear,
        regionCache := st.regionCache.clear,
        currentCheckCache := [] }, rfl, rfl, rfl, rfl, rfl, ?_⟩
    simp only [handleMessage]
    rw [if_neg hne]
  · intro heq
    constructor <;> (simp only [handleMessage]; rw [if_pos heq])

/-- Witness for C3's amended theorem at a concrete state: last full text
`"aa bb"`, a dictionary, one custom word. -/
theorem c3_mutations_cache_behavior_witness :
    (handleMessage { mkState (some acceptAllDict) ["cc"] with
        lastFullText := "aa bb" } .clearWords).2 = [] ∧
    (∃ stc : WState,
        stc.checkedCache.entries = [] ∧ stc.regionCache.entries = [] ∧
        stc.currentCheckCache = [] ∧
        stc.customWords = addCustom (["cc"] : List String) (toLowerStr "Dd") ∧
        stc.dictionary = some acceptAllDict ∧
        (handleMessage { mkState (some acceptAllDict) ["cc"] with
            lastFullText := "aa bb" } (.addWord "Dd")).2 =
          [.checkResult (processText stc "aa bb").results []
             (processText stc "aa bb").state.currentCheckCache,
           .dictionaryUpdated "ADD_WORD" "Dd"]) :=
  ⟨(c3_mutations_cache_behavior
      { mkState (some acceptAllDict) ["cc"] with lastFullText := "aa bb" } "Dd").1.2.2.2,
   (c3_mutations_cache_behavior
      { mkState (some acceptAllDict) ["cc"] with lastFullText := "aa bb" } "Dd").2.1
     (by decide)⟩

/-! ## LRU eviction lemmas -/

theorem find_none_of_not_mem_keys {K V : Type} [DecidableEq K]
    {c : LRUCache K V} {k : K} (h : k ∉ c.keys) :
    c.entries.find? (fun p => decide (p.1 = k)) = none := by
  rw [List.find?_eq_none]
  intro x hx hpx
  simp only [decide_eq_true_eq] at hpx
  exact h (hpx ▸ List.mem_map_of_mem Prod.fst hx)

theorem lru_set_fresh {K V : Type} [DecidableEq K] {c : LRUCache K V}
    {k : K} {v : V} (h : k ∉ c.keys) (hlen : c.entries.length < c.capacity) :
    (c.set k v).entries = (k, v) :: c.entries := by
  unfold LRUCache.set LRUCache.has
  rw [find_none_of_not_mem_keys h]
  simp only [Option.isSome_none, Bool.false_eq_true, if_false, List.length_cons]
  rw [if_neg (by omega : ¬c.capacity < c.entries.length + 1)]

theorem lru_set_capacity {K V : Type} [DecidableEq K] (c : LRUCache K V)
    (k : K) (v : V) : (c.set k v).capacity = c.capacity := by
  unfold LRUCache.set
  split <;> rfl

theorem insertList_fresh_entries {K V : Type} [DecidableEq K] :
    ∀ (ps : List (K × V)) (c : LRUCache K V),
      (∀ p ∈ ps, p.1 ∉ c.keys) → (ps.map Prod.fst).Nodup →
      c.entries.length + ps.length ≤ c.capacity →
      (insertList c ps).entries = ps.reverse ++ c.entries ∧
        (insertList c ps).capacity = c.capacity := by
  intro ps
  induction ps with
  | nil => intro c _ _ _; exact ⟨by simp [insertList], rfl⟩
  | cons p ps ih =>
    intro c hfr hnd hlen
    have hset : (c.set p.1 p.2).entries = p :: c.entries := by
      have h := @lru_set_fresh K V _ c p.1 p.2
        (hfr p (List.mem_cons_self _ _))
        (by simp only [List.length_cons] at hlen; omega)
      simpa using h
    have hcap := lru_set_capacity c p.1 p.2
    have hknd : p.1 ∉ ps.map Prod.fst := by
      simp only [List.map_cons, List.nodup_cons] at hnd
      exact hnd.1
    have hrec := ih (c.set p.1 p.2)
      (by
        intro q hq
        simp only [LRUCache.keys]
        rw [hset]
        simp only [List.map_cons, List.mem_cons]
        push_neg
        refine ⟨?_, ?_⟩
        · intro hqp
          exact hknd (hqp ▸ List.mem_map_of_mem Prod.fst hq)
        · have := hfr q (List.mem_cons_of_mem _ hq)
          simp only [LRUCache.keys] at this
          exact fun hmem => this hmem)
      (by simp only [List.map_cons, List.nodup_cons] at hnd; exact hnd.2)
      (by
        rw [hset, hcap]
        simp only [List.length_cons] at hlen ⊢
        omega)
    refine ⟨?_, hrec.2.trans hcap⟩
    have : insertList c (p :: ps) = insertList (c.set p.1 p.2) ps := by
      simp [insertList]
    rw [this, hrec.1, hset]
    simp [List.reverse_cons, List.append_assoc]

theorem dropLast_reverse_eq {α : Type} (l : List α) :
    l.reverse.dropLast = (l.drop 1).reverse := by
  cases l with
  | nil => rfl
  | cons a as => simp [List.reverse_cons, List.dropLast_concat]

/-- Inserting `c + 1` pairwise-distinct keys into an empty cache of
capacity `c` leaves exactly the last `c` of them, evicting the first. -/
theorem insertList_overflow {K V : Type} [DecidableEq K]
    (c : Nat) (ps : List (K × V)) (hnd : (ps.map Prod.fst).Nodup)
    (hlen : ps.length = c + 1) :
    (insertList (LRUCache.empty K V c) ps).entries = (ps.drop 1).reverse := by
  have hne : ps ≠ [] := by
    intro h; rw [h] at hlen; simp at hlen
  obtain ⟨qs, plast, hps⟩ : ∃ qs plast, ps = qs ++ [plast] :=
    ⟨ps.dropLast, ps.getLast hne, (List.dropLast_append_getLast hne).symm⟩
  subst hps
  have hqlen : qs.length = c := by
    simp only [List.length_append, List.length_singleton] at hlen; omega
  have hndq : (qs.map Prod.fst).Nodup := by
    rw [List.map_append] at hnd
    exact hnd.of_append_left
  have hlast_not : plast.1 ∉ qs.map Prod.fst := by
    rw [List.map_append] at hnd
    have h2 := (List.nodup_append.mp hnd).2.2
    intro hmem
    exact h2 hmem (by simp)
  have hfill := insertList_fresh_entries qs (LRUCache.empty K V c)
    (by intro p _; simp [LRUCache.empty, LRUCache.keys])
    hndq (by simp [LRUCache.empty]; omega)
  have hstep : insertList (LRUCache.empty K V c) (qs ++ [plast]) =
      (insertList (LRUCache.empty K V c) qs).set plast.1 plast.2 := by
    simp [insertList, List.foldl_append]
  rw [hstep]
  have hcap : (insertList (LRUCache.empty K V c) qs).capacity = c := hfill.2
  have hent : (insertList (LRUCache.empty K V c) qs).entries = qs.reverse := by
    rw [hfill.1]; simp [LRUCache.empty]
  have hhas : (insertList (LRUCache.empty K V c) qs).has plast.1 = false := by
    have hnm : plast.1 ∉ (insertList (LRUCache.empty K V c) qs).keys := by
      simp only [LRUCache.keys]
      rw [hent]
      intro hmem
      rw [List.map_reverse, List.mem_reverse] at hmem
      exact hlast_not hmem
    unfold LRUCache.has
    rw [find_none_of_not_mem_keys hnm]
    rfl
  unfold LRUCache.set
  rw [hhas]
  simp only [Bool.false_eq_true, if_false]
  rw [hent, hcap]
  simp only [List.length_cons, List.length_reverse, hqlen]
  rw [if_pos (by omega : c < c + 1)]
  rw [show (plast.1, plast.2) :: qs.reverse = (qs ++ [plast]).reverse by
    simp [List.reverse_append]]
  rw [dropLast_reverse_eq]

theorem removeKey_length {K V : Type} [DecidableEq K] :
    ∀ (l : List (K × V)) (k : K), k ∈ l.map Prod.fst →
      (removeKey l k).length + 1 = l.length := by
  intro l
  induction l with
  | nil => intro k h; simp at h
  | cons p ps ih =>
    intro k h
    by_cases hpk : p.1 = k
    · simp [removeKey, hpk]
    · have hk : k ∈ ps.map Prod.fst := by
        simp only [List.map_cons, List.mem_cons] at h
        rcases h with h | h
        · exact absurd h.symm hpk
        · exact h
      simp only [removeKey, hpk, if_false, List.length_cons]
      rw [← ih k hk]

theorem removeKey_sublist {K V : Type} [DecidableEq K] :
    ∀ (l : List (K × V)) (k : K), (removeKey l k).Sublist l := by
  intro l
  induction l with
  | nil => intro k; simp [removeKey]
  | cons p ps ih =>
    intro k
    by_cases hpk : p.1 = k
    · simp only [removeKey, hpk, if_pos]
      exact List.Sublist.cons p (List.Sublist.refl ps)
    · simp only [removeKey, hpk, if_false]
      exact List.Sublist.cons₂ p (ih k)

theorem removeKey_key_ne {K V : Type} [DecidableEq K] :
    ∀ (l : List (K × V)) (k : K), (l.map Prod.fst).Nodup →
      ∀ q ∈ removeKey l k, q.1 ≠ k := by
  intro l
  induction l with
  | nil => intro k _ q hq; simp [removeKey] at hq
  | cons p ps ih =>
    intro k hnd q hq
    simp only [List.map_cons, List.nodup_cons] at hnd
    by_cases hpk : p.1 = k
    · simp only [removeKey, hpk, if_pos] at hq
      intro hqk
      exact hnd.1 (hpk ▸ hqk ▸ List.mem_map_of_mem Prod.fst hq)
    · simp only [removeKey, hpk, if_false, List.mem_cons] at hq
      rcases hq with hq | hq
      · rw [hq]; exact hpk
      · exact ih k hnd.2 q hq

theorem mem_removeKey {K V : Type} [DecidableEq K] :
    ∀ (l : List (K × V)) (k : K) (q : K × V), q ∈ l → q.1 ≠ k →
      q ∈ removeKey l k := by
  intro l
  induction l with
  | nil => intro k q hq _; simp at hq
  | cons p ps ih =>
    intro k q hq hqk
    by_cases hpk : p.1 = k
    · simp only [removeKey, hpk, if_pos]
      rcases List.mem_cons.mp hq with hq' | hq'
      · exact absurd (hq' ▸ hpk) hqk
      · exact hq'
    · simp only [removeKey, hpk, if_false, List.mem_cons]
      rcases List.mem_cons.mp hq with hq' | hq'
      · exact Or.inl hq'
      · exact Or.inr (ih k q hq' hqk)

theorem lru_get_found {K V : Type} [DecidableEq K] {c : LRUCache K V} {k : K}
    (h : k ∈ c.keys) :
    ∃ v, (c.get k).2.entries = (k, v) :: removeKey c.entries k ∧
      (c.get k).2.capacity = c.capacity := by
  have hsome : (c.entries.find? (fun p => decide (p.1 = k))).isSome := by
    rw [List.find?_isSome]
    obtain ⟨p, hp, hfst⟩ := List.mem_map.mp h
    exact ⟨p, hp, by simp [hfst]⟩
  cases hfind : c.entries.find? (fun p => decide (p.1 = k)) with
  | none => rw [hfind] at hsome; simp at hsome
  | some p =>
    refine ⟨p.2, ?_, ?_⟩ <;> · unfold LRUCache.get; rw [hfind]

/-- If a full cache of capacity at least 2 with pairwise-distinct keys
has key `kq` read via `get` and then a fresh key inserted, the evicted
entry is the least recently used one after the `get`, it is not the key
that was read, and every other key survives. -/
theorem lru_get_protects {K V : Type} [DecidableEq K]
    (st : LRUCache K V) (kq k : K) (v : V)
    (hcap : 2 ≤ st.capacity) (hfull : st.entries.length = st.capacity)
    (hnd : st.keys.Nodup) (hkq : kq ∈ st.keys) (hk : k ∉ st.keys) :
    ∃ evicted : K × V,
      ((st.get kq).2).entries.getLast? = some evicted ∧
      evicted.1 ≠ kq ∧
      kq ∈ (((st.get kq).2).set k v).keys ∧
      k ∈ (((st.get kq).2).set k v).keys ∧
      evicted.1 ∉ (((st.get kq).2).set k v).keys ∧
      ∀ k' ∈ st.keys, k' ≠ evicted.1 → k' ∈ (((st.get kq).2).set k v).keys := by
  obtain ⟨vq, hent, hcap2⟩ := lru_get_found hkq
  set rest := removeKey st.entries kq with hrest
  have hrlen : rest.length + 1 = st.entries.length :=
    removeKey_length st.entries kq hkq
  have hrne : rest ≠ [] := by
    intro h
    rw [h] at hrlen
    simp only [List.length_nil] at hrlen
    omega
  set evicted := rest.getLast hrne with hev
  have hrsplit : rest.dropLast ++ [evicted] = rest :=
    List.dropLast_append_getLast hrne
  have hevmem : evicted ∈ rest := List.getLast_mem hrne
  have hevmemst : evicted ∈ st.entries := removeKey_subset _ _ _ hevmem
  have hndk : (st.entries.map Prod.fst).Nodup := hnd
  have hevne : evicted.1 ≠ kq := removeKey_key_ne st.entries kq hndk evicted hevmem
  -- the state after get
  have hkeysget : ((st.get kq).2).keys = kq :: rest.map Prod.fst := by
    simp only [LRUCache.keys]
    rw [hent]
    rfl
  -- the fresh key is absent after the get
  have hkne : k ≠ kq := fun h => hk (h ▸ hkq)
  have hkget : k ∉ ((st.get kq).2).keys := by
    rw [hkeysget]
    simp only [List.mem_cons]
    push_neg
    refine ⟨hkne, fun hmem => ?_⟩
    obtain ⟨q, hq, hfst⟩ := List.mem_map.mp hmem
    exact hk (hfst ▸ List.mem_map_of_mem Prod.fst (removeKey_subset _ _ _ hq))
  -- the set on the full cache drops the last entry
  have hsetent : (((st.get kq).2).set k v).entries =
      (k, v) :: (kq, vq) :: rest.dropLast := by
    unfold LRUCache.set LRUCache.has
    rw [find_none_of_not_mem_keys hkget]
    simp only [Option.isSome_none, Bool.false_eq_true, if_false]
    rw [hent, hcap2]
    simp only [List.length_cons]
    rw [if_pos (by omega : st.capacity < rest.length + 1 + 1)]
    rw [show ((k, v) :: (kq, vq) :: rest : List (K × V)) =
      ((k, v) :: (kq, vq) :: rest.dropLast) ++ [evicted] by
        rw [List.cons_append, List.cons_append, hrsplit]]
    rw [List.dropLast_concat]
  have hkeysfin : (((st.get kq).2).set k v).keys =
      k :: kq :: rest.dropLast.map Prod.fst := by
    simp only [LRUCache.keys]
    rw [hsetent]
    rfl
  -- keys of rest are pairwise distinct
  have hndrest : (rest.map Prod.fst).Nodup :=
    ((removeKey_sublist st.entries kq).map Prod.fst).nodup hndk
  refine ⟨evicted, ?_, hevne, ?_, ?_, ?_, ?_⟩
  · rw [hent]
    rw [show ((kq, vq) :: rest : List (K × V)) =
      ((kq, vq) :: rest.dropLast) ++ [evicted] by rw [List.cons_append, hrsplit]]
    rw [List.getLast?_concat]
  · rw [hkeysfin]; simp
  · rw [hkeysfin]; simp
  · rw [hkeysfin]
    simp only [List.mem_cons]
    push_neg
    have hevk : evicted.1 ≠ k := by
      intro h
      exact hk (h ▸ List.mem_map_of_mem Prod.fst hevmemst)
    refine ⟨hevk, hevne, fun hmem => ?_⟩
    have heq : (rest.map Prod.fst) = rest.dropLast.map Prod.fst ++ [evicted.1] := by
      rw [← hrsplit, List.map_append]
      simp
    rw [heq] at hndrest
    exact (List.nodup_append.mp hndrest).2.2 hmem (by simp)
  · intro k' hk' hk'ev
    rw [hkeysfin]
    by_cases hk'kq : k' = kq
    · simp [hk'kq]
    · obtain ⟨q, hq, hfst⟩ := List.mem_map.mp hk'
      have hqrest : q ∈ rest := mem_removeKey st.entries kq q hq (by
        rw [hfst]; exact hk'kq)
      have hqdl : q ∈ rest.dropLast := by
        have hq2 : q ∈ rest.dropLast ++ [evicted] := by rw [hrsplit]; exact hqrest
        rcases List.mem_append.mp hq2 with h | h
        · exact h
        · simp only [List.mem_singleton] at h
          exact absurd (by rw [← hfst, h]) hk'ev
      simp only [List.mem_cons]
      exact Or.inr (Or.inr (hfst ▸ List.mem_map_of_mem Prod.fst hqdl))

/-! ## Tokenizer soundness -/

theorem findK_spec (s : List Char) (i : Nat) :
    ∀ m k, findK s i m = some k →
      2 ≤ k ∧ k ≤ m ∧ boundaryB s (i + k) = true := by
  intro m
  induction m with
  | zero => intro k h; simp [findK] at h
  | succ m ih =>
    intro k h
    cases m with
    | zero => simp [findK] at h
    | succ m' =>
      unfold findK at h
      by_cases hb : boundaryB s (i + (m' + 2))
      · rw [if_pos hb] at h
        cases h
        exact ⟨by omega, le_refl _, hb⟩
      · rw [if_neg hb] at h
        have := ih k h
        exact ⟨this.1, by omega, this.2.2⟩

theorem runLen_le (s : List Char) (i : Nat) : runLen s i ≤ s.length - i := by
  unfold runLen
  have h1 := (@List.takeWhile_sublist Char (s.drop i) isClassChar).length_le
  rw [List.length_drop] at h1
  exact h1

theorem take_runLen_class (s : List Char) (i k : Nat) (hk : k ≤ runLen s i) :
    ∀ c ∈ (s.drop i).take k, isClassChar c = true := by
  intro c hc
  unfold runLen at hk
  have hsplit : (s.drop i).takeWhile isClassChar ++ (s.drop i).dropWhile isClassChar
      = s.drop i := List.takeWhile_append_dropWhile isClassChar (s.drop i)
  have htake : (s.drop i).take k = ((s.drop i).takeWhile isClassChar).take k := by
    conv_lhs => rw [← hsplit]
    rw [List.take_append_of_le_length hk]
  rw [htake] at hc
  exact List.mem_takeWhile_imp (List.mem_of_mem_take hc)

theorem scanTokens_sound (s : List Char) :
    ∀ fuel i, ∀ tok ∈ scanTokens s fuel i,
      tok.start + 2 ≤ tok.«end» ∧
      tok.«end» ≤ s.length ∧
      tok.word = String.mk ((s.drop tok.start).take (tok.«end» - tok.start)) ∧
      tok.word.length = tok.«end» - tok.start ∧
      (∀ c ∈ tok.word.toList, isClassChar c = true) ∧
      boundaryB s tok.start = true ∧ boundaryB s tok.«end» = true := by
  intro fuel
  induction fuel with
  | zero => intro i tok htok; simp [scanTokens] at htok
  | succ fuel ih =>
    intro i tok htok
    unfold scanTokens at htok
    by_cases hlen : s.length ≤ i
    · rw [if_pos hlen] at htok; simp at htok
    · rw [if_neg hlen] at htok
      by_cases hb : boundaryB s i
      · rw [if_pos hb] at htok
        cases hfk : findK s i (runLen s i) with
        | some k =>
          rw [hfk] at htok
          obtain ⟨h2, hkm, hbk⟩ := findK_spec s i (runLen s i) k hfk
          rcases List.mem_cons.mp htok with htok | htok
          · subst htok
            have hklen : k ≤ s.length - i := le_trans hkm (runLen_le s i)
            have hlenword : ((s.drop i).take k).length = k := by
              rw [List.length_take, List.length_drop]
              exact inf_eq_left.mpr hklen
            dsimp only
            refine ⟨by omega, by omega,
              by rw [show i + k - i = k from by omega], ?_, ?_, hb, hbk⟩
            · show ((s.drop i).take k).length = i + k - i
              rw [hlenword]
              omega
            · intro c hc
              exact take_runLen_class s i k hkm c hc
          · exact ih (i + k) tok htok
        | none =>
          rw [hfk] at htok
          exact ih (i + 1) tok htok
      · rw [if_neg hb] at htok
        exact ih (i + 1) tok htok

theorem tokenize_sound (t : String) :
    ∀ tok ∈ tokenize t,
      tok.start + 2 ≤ tok.«end» ∧
      tok.«end» ≤ t.toList.length ∧
      tok.word = sliceStr t tok.start tok.«end» ∧
      tok.word.length = tok.«end» - tok.start ∧
      (∀ c ∈ tok.word.toList, isClassChar c = true) ∧
      boundaryB t.toList tok.start = true ∧ boundaryB t.toList tok.«end» = true := by
  intro tok htok
  have h := scanTokens_sound t.toList (t.toList.length + 1) 0 tok htok
  exact ⟨h.1, h.2.1, h.2.2.1, h.2.2.2⟩

/-! ## Full-check results come from tokens -/

theorem processWord_results_from_tok (acc : PTAcc) (tok : Token) :
    (processWord acc tok).results = acc.results ∨
    (processWord acc tok).results =
      acc.results ++ [⟨tok.word, tok.start, tok.«end»⟩] := by
  unfold processWord
  cases hfind : acc.state.checkedCache.entries.find?
      (fun p => decide (p.1 = toLowerStr tok.word)) with
  | some p =>
    dsimp only
    rw [if_pos (lru_has_of_find_some hfind), lru_get_of_find_some hfind]
    cases hp : p.2 with
    | true => exact Or.inl rfl
    | false => exact Or.inr rfl
  | none =>
    dsimp only
    rw [if_neg (by simp [lru_has_of_find_none hfind])]
    cases hcw : checkWord acc.state (toLowerStr tok.word) with
    | mk iv nc =>
      cases iv with
      | true =>
        dsimp only
        rw [if_pos rfl]
        exact Or.inl rfl
      | false =>
        dsimp only
        rw [if_neg Bool.false_ne_true]
        exact Or.inr rfl

theorem foldl_processWord_results_from_toks :
    ∀ (toks : List Token) (acc : PTAcc),
      ∀ e ∈ (toks.foldl processWord acc).results,
        e ∈ acc.results ∨ ∃ tok ∈ toks,
          e.word = tok.word ∧ e.start = tok.start ∧ e.«end» = tok.«end» := by
  intro toks
  induction toks with
  | nil => intro acc e he; exact Or.inl he
  | cons tok toks ih =>
    intro acc e he
    simp only [List.foldl_cons] at he
    rcases ih (processWord acc tok) e he with hin | ⟨tok', htok', hm⟩
    · rcases processWord_results_from_tok acc tok with heq | heq
      · rw [heq] at hin
        exact Or.inl hin
      · rw [heq] at hin
        rcases List.mem_append.mp hin with hin | hin
        · exact Or.inl hin
        · simp only [List.mem_singleton] at hin
          subst hin
          exact Or.inr ⟨tok, List.mem_cons_self _ _, rfl, rfl, rfl⟩
    · exact Or.inr ⟨tok', List.mem_cons_of_mem _ htok', hm⟩

/-! ## C8 (amended): shape of reported words -/

/-- C8, amended: confirmed with a weaker tokenization clause.  Every
entry in the result list of a full check (from any engine state)
satisfies `end = start + length(word)` and `text[start:end] = word`, and
the word is a run of `[a-zA-Z']` characters of length at least 2 with a
JavaScript word boundary at each end (so it never contains a digit and
is never a single letter).  The word need not be a *maximal*
letters-and-apostrophes run, and an apostrophe-only word can occur (see
the counterexample). -/
theorem c8_full_check_entry_shape (st : WState) (t : String) :
    ∀ e ∈ (processText st t).results,
      e.«end» = e.start + e.word.length ∧
      sliceStr t e.start e.«end» = e.word ∧
      2 ≤ e.word.length ∧
      (∀ c ∈ e.word.toList, isClassChar c = true) ∧
      boundaryB t.toList e.start = true ∧
      boundaryB t.toList e.«end» = true := by
  intro e he
  rcases foldl_processWord_results_from_toks (tokenize t) ⟨[], st, []⟩ e he with
    hin | ⟨tok, htok, hw, hs, hend⟩
  · simp at hin
  · have h := tokenize_sound t tok htok
    rw [hw, hs, hend]
    refine ⟨?_, h.2.2.1.symm, ?_, h.2.2.2.2.1, h.2.2.2.2.2.1, h.2.2.2.2.2.2⟩
    · rw [h.2.2.2.1]
      omega
    · rw [h.2.2.2.1]
      omega

/-- Witness for C8's amended theorem: the entry reported for
`"helo abc"` under a dictionary rejecting every word. -/
theorem c8_full_check_entry_shape_witness :
    (⟨"helo", 0, 4⟩ : CheckEntry) ∈
      (processText (mkState (some rejectAllDict) []) "helo abc").results ∧
    ((⟨"helo", 0, 4⟩ : CheckEntry).«end» =
        (⟨"helo", 0, 4⟩ : CheckEntry).start +
          (⟨"helo", 0, 4⟩ : CheckEntry).word.length ∧
      sliceStr "helo abc" 0 4 = "helo" ∧
      2 ≤ ("helo" : String).length ∧
      (∀ c ∈ ("helo" : String).toList, isClassChar c = true) ∧
      boundaryB ("helo abc" : String).toList 0 = true ∧
      boundaryB ("helo abc" : String).toList 4 = true) :=
  ⟨by decide,
   c8_full_check_entry_shape (mkState (some rejectAllDict) []) "helo abc"
     ⟨"helo", 0, 4⟩ (by decide)⟩

/-! ## C4 (amended): the region-cache guard -/

theorem processRegionWord_words_cache (rs : Nat) (acc : RegAcc) (tok : Token) :
    (processRegionWord rs acc tok).regionWords = acc.regionWords ++ [tok.word] ∧
    (processRegionWord rs acc tok).state.regionCache = acc.state.regionCache := by
  unfold processRegionWord
  cases hfind : acc.state.checkedCache.entries.find?
      (fun p => decide (p.1 = toLowerStr tok.word)) with
  | some p =>
    dsimp only
    rw [if_pos (lru_has_of_find_some hfind), lru_get_of_find_some hfind]
    cases hp : p.2 with
    | true => exact ⟨rfl, rfl⟩
    | false => exact ⟨rfl, rfl⟩
  | none =>
    dsimp only
    rw [if_neg (by simp [lru_has_of_find_none hfind])]
    cases hcw : checkWord acc.state (toLowerStr tok.word) with
    | mk iv nc =>
      cases iv with
      | true =>
        dsimp only
        rw [if_pos rfl]
        exact ⟨rfl, rfl⟩
      | false =>
        dsimp only
        rw [if_neg Bool.false_ne_true]
        exact ⟨rfl, rfl⟩

theorem foldl_processRegionWord_words_cache (rs : Nat) :
    ∀ (toks : List Token) (acc : RegAcc),
      (toks.foldl (processRegionWord rs) acc).regionWords =
        acc.regionWords ++ toks.map Token.word ∧
      (toks.foldl (processRegionWord rs) acc).state.regionCache =
        acc.state.regionCache := by
  intro toks
  induction toks with
  | nil => intro acc; simp
  | cons tok toks ih =>
    intro acc
    have hstep := processRegionWord_words_cache rs acc tok
    have hrest := ih (processRegionWord rs acc tok)
    simp only [List.foldl_cons, List.map_cons]
    constructor
    · rw [hrest.1, hstep.1]
      simp
    · rw [hrest.2, hstep.2]

/-- C4, amended: confirmed.  During an incremental check, a region whose
key was stored by an earlier check of region text `t` is served from the
region cache on a later check with current text `t'` if and only if the
concatenation of the word tokens of `t` (the recorded `words` list)
equals `t'` stripped of all whitespace.  In particular punctuation or
any other non-token character in an *unchanged* region text makes the
guard fail and forces recomputation, so the guard is not a
whitespace-normalized text comparison. -/
theorem c4_region_cache_guard (dct : Option Dict) (cw : List String)
    (a b : Nat) (t t' full : String) :
    regionHit (processIncrementalText (mkState dct cw) full [⟨a, b, t⟩]).state
        ⟨a, b, t'⟩ =
      (String.join ((tokenize t).map Token.word) == stripWS t') := by
  have hinner := foldl_processRegionWord_words_cache a (tokenize t)
    ⟨[], [], [], { mkState dct cw with currentCheckCache := [] }, []⟩
  set inner := (tokenize t).foldl (processRegionWord a)
    ⟨[], [], [], { mkState dct cw with currentCheckCache := [] }, []⟩ with hinnerdef
  have hwords : inner.regionWords = (tokenize t).map Token.word := by
    simpa using hinner.1
  have hcache : inner.state.regionCache = (mkState dct cw).regionCache := hinner.2
  -- the single region misses the (empty) region cache and is recomputed,
  -- storing its word list under the key "a-b"
  have h0 : (processIncrementalText (mkState dct cw) full [⟨a, b, t⟩]).state.regionCache =
      inner.state.regionCache.set (regionKey ⟨a, b, t⟩)
        ⟨inner.regionWords, inner.regionResults⟩ := rfl
  have hset : ((mkState dct cw).regionCache).set (regionKey ⟨a, b, t⟩)
      ⟨inner.regionWords, inner.regionResults⟩ =
      ⟨1000, [(regionKey ⟨a, b, t⟩, ⟨inner.regionWords, inner.regionResults⟩)]⟩ := rfl
  have hS : (processIncrementalText (mkState dct cw) full [⟨a, b, t⟩]).state.regionCache =
      ⟨1000, [(regionKey ⟨a, b, t⟩, ⟨inner.regionWords, inner.regionResults⟩)]⟩ := by
    rw [h0, hcache, hset]
  have hget : (((⟨1000, [(regionKey ⟨a, b, t⟩,
      (⟨inner.regionWords, inner.regionResults⟩ : RegionEntry))]⟩ :
        LRUCache String RegionEntry)).get (regionKey ⟨a, b, t⟩)).1 =
      some ⟨inner.regionWords, inner.regionResults⟩ := by
    unfold LRUCache.get
    rw [List.find?_cons_of_pos _ (by simp)]
  unfold regionHit
  rw [show regionKey (⟨a, b, t'⟩ : Region) = regionKey ⟨a, b, t⟩ from rfl, hS, hget]
  unfold regionEntryFresh
  rw [hwords]

/-! ## C7 infrastructure: cache correctness and canonical results -/

/-- The verdict `customWords.has(w) || (dictionary?.check(w) ?? true)`
as a pure function of the dictionary and the custom word set. -/
def checkWordF (d : Option Dict) (cw : List String) (w : String) : Bool :=
  if cw.contains w then true
  else match d with
    | some dd => dd.check w
    | none => true

theorem checkWord_eq (st : WState) (w : String) :
    checkWord st w =
      (checkWordF st.dictionary st.customWords w,
       if st.customWords.contains w then []
       else match st.dictionary with
         | some _ => [w]
         | none => []) := by
  unfold checkWord checkWordF
  by_cases hc : st.customWords.contains w
  · rw [if_pos hc, if_pos hc, if_pos hc]
  · rw [if_neg hc, if_neg hc, if_neg hc]
    cases st.dictionary <;> rfl

/-- A word cache entry is correct when it stores the current verdict. -/
def CacheCorrect (d : Option Dict) (cw : List String)
    (c : LRUCache String Bool) : Prop :=
  ∀ p ∈ c.entries, p.2 = checkWordF d cw p.1

theorem lru_get_pres_pair {K V : Type} [DecidableEq K] {c : LRUCache K V}
    {k : K} (P : K × V → Prop) (hall : ∀ p ∈ c.entries, P p) :
    ∀ q ∈ ((c.get k).2).entries, P q := by
  unfold LRUCache.get
  cases hfind : c.entries.find? (fun p => decide (p.1 = k)) with
  | none => simpa using hall
  | some p =>
    have hpk : p.1 = k := by
      have := List.find?_some hfind
      simpa using this
    intro q hq
    simp only [List.mem_cons] at hq
    rcases hq with hq | hq
    · have hp := hall p (List.mem_of_find?_eq_some hfind)
      have : (k, p.2) = p := by rw [← hpk]
      rw [hq, this]
      exact hp
    · exact hall q (removeKey_subset _ _ q hq)

theorem lru_set_pres_pair {K V : Type} [DecidableEq K] {c : LRUCache K V}
    {k : K} {v : V} (P : K × V → Prop) (hv : P (k, v))
    (hall : ∀ p ∈ c.entries, P p) :
    ∀ q ∈ (c.set k v).entries, P q := by
  unfold LRUCache.set
  by_cases hhas : c.has k
  · intro q hq
    simp only [hhas, if_true, List.mem_cons] at hq
    rcases hq with hq | hq
    · rw [hq]; exact hv
    · exact hall q (removeKey_subset _ _ q hq)
  · intro q hq
    simp only [hhas, Bool.false_eq_true, if_false] at hq
    have hq' : q ∈ (k, v) :: c.entries := by
      split at hq
      · exact List.dropLast_subset _ hq
      · exact hq
    rcases List.mem_cons.mp hq' with hq'' | hq''
    · rw [hq'']; exact hv
    · exact hall q hq''

/-- The result entries a full check reports for a token list, as a pure
function of the dictionary and custom word set. -/
def expectedResults (d : Option Dict) (cw : List String)
    (toks : List Token) : List CheckEntry :=
  toks.filterMap (fun tok =>
    if checkWordF d cw (toLowerStr tok.word) then none
    else some ⟨tok.word, tok.start, tok.«end»⟩)

/-- One `processWord` step under a correct cache: the appended result is
the canonical one and correctness, the dictionary and the custom word
set are preserved. -/
theorem processWord_canonical {d : Option Dict} {cw : List String}
    (acc : PTAcc) (tok : Token)
    (hd : acc.state.dictionary = d) (hc : acc.state.customWords = cw)
    (hcache : CacheCorrect d cw acc.state.checkedCache) :
    (processWord acc tok).results = acc.results ++
      (if checkWordF d cw (toLowerStr tok.word) then []
       else [⟨tok.word, tok.start, tok.«end»⟩]) ∧
    (processWord acc tok).state.dictionary = d ∧
    (processWord acc tok).state.customWords = cw ∧
    CacheCorrect d cw (processWord acc tok).state.checkedCache := by
  unfold processWord
  cases hfind : acc.state.checkedCache.entries.find?
      (fun p => decide (p.1 = toLowerStr tok.word)) with
  | some p =>
    have hpk : p.1 = toLowerStr tok.word := by
      have := List.find?_some hfind
      simpa using this
    have hpv : p.2 = checkWordF d cw (toLowerStr tok.word) := by
      rw [← hpk]
      exact hcache p (List.mem_of_find?_eq_some hfind)
    have hpres : CacheCorrect d cw
        ((acc.state.checkedCache.get (toLowerStr tok.word)).2) :=
      lru_get_pres_pair (fun q => q.2 = checkWordF d cw q.1) hcache
    dsimp only
    rw [if_pos (lru_has_of_find_some hfind), lru_get_of_find_some hfind]
    cases hp2 : p.2 with
    | true =>
      have hvf : checkWordF d cw (toLowerStr tok.word) = true := by
        rw [← hpv]; exact hp2
      dsimp only
      rw [hvf]
      refine ⟨by simp, hd, hc, ?_⟩
      have h2 := hpres
      rw [lru_get_of_find_some hfind, hp2] at h2
      exact h2
    | false =>
      have hvf : checkWordF d cw (toLowerStr tok.word) = false := by
        rw [← hpv]; exact hp2
      dsimp only
      rw [hvf]
      refine ⟨by simp, hd, hc, ?_⟩
      have h2 := hpres
      rw [lru_get_of_find_some hfind, hp2] at h2
      exact h2
  | none =>
    dsimp only
    rw [if_neg (by simp [lru_has_of_find_none hfind])]
    rw [checkWord_eq acc.state (toLowerStr tok.word), hd, hc]
    dsimp only
    have hsetpres : CacheCorrect d cw
        (acc.state.checkedCache.set (toLowerStr tok.word)
          (checkWordF d cw (toLowerStr tok.word))) :=
      lru_set_pres_pair (fun q => q.2 = checkWordF d cw q.1) rfl hcache
    cases hv : checkWordF d cw (toLowerStr tok.word) with
    | true =>
      rw [if_pos rfl]
      refine ⟨by simp, rfl, rfl, ?_⟩
      rw [← hv]
      exact hsetpres
    | false =>
      rw [if_neg Bool.false_ne_true]
      refine ⟨by simp, rfl, rfl, ?_⟩
      rw [← hv]
      exact hsetpres

theorem foldl_processWord_canonical {d : Option Dict} {cw : List String} :
    ∀ (toks : List Token) (acc : PTAcc),
      acc.state.dictionary = d → acc.state.customWords = cw →
      CacheCorrect d cw acc.state.checkedCache →
      (toks.foldl processWord acc).results =
        acc.results ++ expectedResults d cw toks ∧
      (toks.foldl processWord acc).state.dictionary = d ∧
      (toks.foldl processWord acc).state.customWords = cw ∧
      CacheCorrect d cw (toks.foldl processWord acc).state.checkedCache := by
  intro toks
  induction toks with
  | nil =>
    intro acc hd hc hcache
    exact ⟨by simp [expectedResults], hd, hc, hcache⟩
  | cons tok toks ih =>
    intro acc hd hc hcache
    have hstep := processWord_canonical acc tok hd hc hcache
    have hrest := ih (processWord acc tok) hstep.2.1 hstep.2.2.1 hstep.2.2.2
    simp only [List.foldl_cons]
    refine ⟨?_, hrest.2⟩
    rw [hrest.1, hstep.1]
    unfold expectedResults
    cases hv : checkWordF d cw (toLowerStr tok.word) with
    | true => simp [List.filterMap_cons, hv]
    | false => simp [List.filterMap_cons, hv]

/-! ## C7 infrastructure: key-set evolution and the no-call lemma -/

theorem lru_get_capacity {K V : Type} [DecidableEq K] (c : LRUCache K V)
    (k : K) : ((c.get k).2).capacity = c.capacity := by
  unfold LRUCache.get
  cases hfind : c.entries.find? (fun p => decide (p.1 = k)) <;> rfl

theorem lru_get_keys {K V : Type} [DecidableEq K] (c : LRUCache K V) (k : K)
    (hnd : c.keys.Nodup) :
    ((c.get k).2).keys.Nodup ∧ ∀ w, w ∈ ((c.get k).2).keys ↔ w ∈ c.keys := by
  unfold LRUCache.get
  cases hfind : c.entries.find? (fun p => decide (p.1 = k)) with
  | none => exact ⟨hnd, fun w => Iff.rfl⟩
  | some p =>
    have hpk : p.1 = k := by
      have := List.find?_some hfind
      simpa using this
    have hpmem : p ∈ c.entries := List.mem_of_find?_eq_some hfind
    have hndk : (c.entries.map Prod.fst).Nodup := hnd
    constructor
    · show (((k, p.2) :: removeKey c.entries k).map Prod.fst).Nodup
      simp only [List.map_cons, List.nodup_cons]
      constructor
      · intro hmem
        obtain ⟨q, hq, hfst⟩ := List.mem_map.mp hmem
        exact removeKey_key_ne c.entries k hndk q hq hfst
      · exact ((removeKey_sublist c.entries k).map Prod.fst).nodup hndk
    · intro w
      show w ∈ ((k, p.2) :: removeKey c.entries k).map Prod.fst ↔
        w ∈ c.entries.map Prod.fst
      simp only [List.map_cons, List.mem_cons]
      constructor
      · intro h
        rcases h with h | h
        · rw [h, ← hpk]
          exact List.mem_map_of_mem Prod.fst hpmem
        · obtain ⟨q, hq, hfst⟩ := List.mem_map.mp h
          exact hfst ▸ List.mem_map_of_mem Prod.fst (removeKey_subset _ _ q hq)
      · intro h
        by_cases hwk : w = k
        · exact Or.inl hwk
        · obtain ⟨q, hq, hfst⟩ := List.mem_map.mp h
          refine Or.inr (hfst ▸ List.mem_map_of_mem Prod.fst ?_)
          exact mem_removeKey c.entries k q hq (by rw [hfst]; exact hwk)

theorem nodup_subset_dedup_length {α : Type} [DecidableEq α]
    {l l' : List α} (hnd : l.Nodup) (hsub : ∀ w ∈ l, w ∈ l') :
    l.length ≤ l'.dedup.length := by
  have h1 : l.length = l.toFinset.card := (List.toFinset_card_of_nodup hnd).symm
  have h2 : l.toFinset ⊆ l'.toFinset := by
    intro a ha
    rw [List.mem_toFinset] at ha ⊢
    exact hsub a ha
  have h3 : l'.toFinset.card = l'.dedup.length := List.card_toFinset l'
  rw [h1, ← h3]
  exact Finset.card_le_card h2

/-- Processing a token list whose lowercased words all lie in `allLows`
never evicts when the cache (with pairwise-distinct keys inside
`allLows`) has capacity at least the number of distinct such words; all
previous keys survive and all processed words end up cached. -/
theorem foldl_processWord_keys {allLows : List String} :
    ∀ (toks : List Token) (acc : PTAcc),
      acc.state.checkedCache.keys.Nodup →
      (∀ w ∈ acc.state.checkedCache.keys, w ∈ allLows) →
      (∀ tok ∈ toks, toLowerStr tok.word ∈ allLows) →
      allLows.dedup.length ≤ acc.state.checkedCache.capacity →
      (toks.foldl processWord acc).state.checkedCache.capacity =
        acc.state.checkedCache.capacity ∧
      (toks.foldl processWord acc).state.checkedCache.keys.Nodup ∧
      (∀ w ∈ (toks.foldl processWord acc).state.checkedCache.keys, w ∈ allLows) ∧
      (∀ w ∈ acc.state.checkedCache.keys,
        w ∈ (toks.foldl processWord acc).state.checkedCache.keys) ∧
      (∀ tok ∈ toks,
        toLowerStr tok.word ∈ (toks.foldl processWord acc).state.checkedCache.keys) := by
  intro toks
  induction toks with
  | nil =>
    intro acc hnd hsub _ _
    exact ⟨rfl, hnd, hsub, fun w hw => hw, by intro tok htok; simp at htok⟩
  | cons tok toks ih =>
    intro acc hnd hsub htoks hcap
    have hstep : (processWord acc tok).state.checkedCache.capacity =
          acc.state.checkedCache.capacity ∧
        (processWord acc tok).state.checkedCache.keys.Nodup ∧
        (∀ w, w ∈ (processWord acc tok).state.checkedCache.keys ↔
          w = toLowerStr tok.word ∨ w ∈ acc.state.checkedCache.keys) := by
      unfold processWord
      cases hfind : acc.state.checkedCache.entries.find?
          (fun p => decide (p.1 = toLowerStr tok.word)) with
      | some p =>
        have hpk : p.1 = toLowerStr tok.word := by
          have := List.find?_some hfind
          simpa using this
        have hlw : toLowerStr tok.word ∈ acc.state.checkedCache.keys :=
          hpk ▸ List.mem_map_of_mem Prod.fst (List.mem_of_find?_eq_some hfind)
        have hkeys := lru_get_keys acc.state.checkedCache (toLowerStr tok.word) hnd
        have hcapg := lru_get_capacity acc.state.checkedCache (toLowerStr tok.word)
        dsimp only
        rw [if_pos (lru_has_of_find_some hfind), lru_get_of_find_some hfind]
        rw [lru_get_of_find_some hfind] at hkeys hcapg
        dsimp only at hkeys hcapg
        cases hp2 : p.2 with
        | true =>
          rw [hp2] at hkeys
          refine ⟨hcapg, hkeys.1, fun w => ?_⟩
          rw [hkeys.2 w]
          constructor
          · exact Or.inr
          · intro h
            rcases h with h | h
            · rw [h]; exact hlw
            · exact h
        | false =>
          rw [hp2] at hkeys
          refine ⟨hcapg, hkeys.1, fun w => ?_⟩
          rw [hkeys.2 w]
          constructor
          · exact Or.inr
          · intro h
            rcases h with h | h
            · rw [h]; exact hlw
            · exact h
      | none =>
        have hfresh : toLowerStr tok.word ∉ acc.state.checkedCache.keys := by
          intro hmem
          obtain ⟨q, hq, hfst⟩ := List.mem_map.mp hmem
          have := List.find?_eq_none.mp hfind q hq
          simp [hfst] at this
        have hlt : acc.state.checkedCache.entries.length <
            acc.state.checkedCache.capacity := by
          have hlen : (toLowerStr tok.word :: acc.state.checkedCache.keys).length ≤
              allLows.dedup.length := by
            apply nodup_subset_dedup_length
            · exact List.nodup_cons.mpr ⟨hfresh, hnd⟩
            · intro w hw
              rcases List.mem_cons.mp hw with hw | hw
              · rw [hw]; exact htoks tok (List.mem_cons_self _ _)
              · exact hsub w hw
          have hkl : acc.state.checkedCache.keys.length =
              acc.state.checkedCache.entries.length := by
            simp [LRUCache.keys]
          simp only [List.length_cons] at hlen
          omega
        have hset := @lru_set_fresh String Bool _ acc.state.checkedCache
          (toLowerStr tok.word)
          ((checkWord acc.state (toLowerStr tok.word)).1) hfresh hlt
        dsimp only
        rw [if_neg (by simp [lru_has_of_find_none hfind])]
        cases hcw : checkWord acc.state (toLowerStr tok.word) with
        | mk iv nc =>
          have hset' : (acc.state.checkedCache.set (toLowerStr tok.word) iv).entries =
              (toLowerStr tok.word, iv) :: acc.state.checkedCache.entries := by
            rw [hcw] at hset
            exact hset
          have hkeys' : (acc.state.checkedCache.set (toLowerStr tok.word) iv).keys =
              toLowerStr tok.word :: acc.state.checkedCache.keys := by
            simp only [LRUCache.keys]
            rw [hset']
            rfl
          have hcapres := lru_set_capacity acc.state.checkedCache
            (toLowerStr tok.word) iv
          cases iv with
          | true =>
            dsimp only
            rw [if_pos rfl]
            refine ⟨hcapres, ?_, fun w => ?_⟩
            · rw [hkeys']
              exact List.nodup_cons.mpr ⟨hfresh, hnd⟩
            · rw [hkeys']
              simp only [List.mem_cons]
          | false =>
            dsimp only
            rw [if_neg Bool.false_ne_true]
            refine ⟨hcapres, ?_, fun w => ?_⟩
            · rw [hkeys']
              exact List.nodup_cons.mpr ⟨hfresh, hnd⟩
            · rw [hkeys']
              simp only [List.mem_cons]
    obtain ⟨hcap', hnd', hiff⟩ := hstep
    have hrest := ih (processWord acc tok) hnd'
      (by
        intro w hw
        rcases (hiff w).mp hw with h | h
        · rw [h]; exact htoks tok (List.mem_cons_self _ _)
        · exact hsub w h)
      (fun tk htk => htoks tk (List.mem_cons_of_mem _ htk))
      (by rw [hcap']; exact hcap)
    simp only [List.foldl_cons]
    refine ⟨hrest.1.trans hcap', hrest.2.1, hrest.2.2.1, ?_, ?_⟩
    · intro w hw
      exact hrest.2.2.2.1 w ((hiff w).mpr (Or.inr hw))
    · intro tk htk
      rcases List.mem_cons.mp htk with htk | htk
      · subst htk
        exact hrest.2.2.2.1 _ ((hiff _).mpr (Or.inl rfl))
      · exact hrest.2.2.2.2 tk htk

/-- If every token's lowercased word is already cached, a run makes no
dictionary calls. -/
theorem foldl_processWord_no_calls :
    ∀ (toks : List Token) (acc : PTAcc),
      acc.state.checkedCache.keys.Nodup →
      (∀ tok ∈ toks, toLowerStr tok.word ∈ acc.state.checkedCache.keys) →
      (toks.foldl processWord acc).calls = acc.calls := by
  intro toks
  induction toks with
  | nil => intro acc _ _; rfl
  | cons tok toks ih =>
    intro acc hnd hin
    have hlw := hin tok (List.mem_cons_self _ _)
    have hsome : (acc.state.checkedCache.entries.find?
        (fun p => decide (p.1 = toLowerStr tok.word))).isSome := by
      rw [List.find?_isSome]
      obtain ⟨q, hq, hfst⟩ := List.mem_map.mp hlw
      exact ⟨q, hq, by simp [hfst]⟩
    cases hfind : acc.state.checkedCache.entries.find?
        (fun p => decide (p.1 = toLowerStr tok.word)) with
    | none => rw [hfind] at hsome; simp at hsome
    | some p =>
      have hkeys := lru_get_keys acc.state.checkedCache (toLowerStr tok.word) hnd
      have hstep : (processWord acc tok).calls = acc.calls ∧
          (processWord acc tok).state.checkedCache =
            (acc.state.checkedCache.get (toLowerStr tok.word)).2 := by
        unfold processWord
        dsimp only
        rw [if_pos (lru_has_of_find_some hfind), lru_get_of_find_some hfind]
        cases hp2 : p.2 with
        | true => exact ⟨rfl, rfl⟩
        | false => exact ⟨rfl, rfl⟩
      simp only [List.foldl_cons]
      rw [ih (processWord acc tok)
        (by rw [hstep.2]; exact hkeys.1)
        (by
          intro tk htk
          rw [hstep.2, (hkeys.2 _)]
          exact hin tk (List.mem_cons_of_mem _ htk))]
      exact hstep.1

/-! ## C7 (amended): idempotent full check -/

/-- C7, amended: the result lists of two consecutive full checks of the
same text (no mutation in between, starting from empty caches) are
always identical; and provided the text holds at most 5000 distinct
lowercased words (the word cache's capacity), the second call makes no
dictionary calls at all — every verdict is served from the word cache.
(With more distinct words than the capacity, words evicted during the
first pass are re-checked, so the no-call half needs the bound.) -/
theorem c7_full_check_idempotent (dct : Option Dict) (cw : List String)
    (t : String) :
    (processText (processText (mkState dct cw) t).state t).results =
      (processText (mkState dct cw) t).results ∧
    ((((tokenize t).map (fun tok => toLowerStr tok.word)).dedup.length ≤ 5000) →
      (processText (processText (mkState dct cw) t).state t).calls = []) := by
  have hcc0 : CacheCorrect dct cw (mkState dct cw).checkedCache := by
    intro p hp
    simp [mkState, LRUCache.empty] at hp
  have hrun1 := foldl_processWord_canonical (tokenize t)
    ⟨[], mkState dct cw, []⟩ rfl rfl hcc0
  have hrun2 := foldl_processWord_canonical (tokenize t)
    ⟨[], (processText (mkState dct cw) t).state, []⟩
    hrun1.2.1 hrun1.2.2.1 hrun1.2.2.2
  constructor
  · show ((tokenize t).foldl processWord
        ⟨[], (processText (mkState dct cw) t).state, []⟩).results = _
    rw [hrun2.1]
    show [] ++ expectedResults dct cw (tokenize t) =
      ((tokenize t).foldl processWord ⟨[], mkState dct cw, []⟩).results
    rw [hrun1.1]
    rfl
  · intro hbound
    have hkeys := @foldl_processWord_keys
      ((tokenize t).map (fun tok => toLowerStr tok.word))
      (tokenize t) ⟨[], mkState dct cw, []⟩
      (by simp [mkState, LRUCache.empty, LRUCache.keys])
      (by intro w hw; simp [mkState, LRUCache.empty, LRUCache.keys] at hw)
      (by
        intro tok htok
        exact List.mem_map_of_mem _ htok)
      (by
        show _ ≤ (mkState dct cw).checkedCache.capacity
        exact hbound)
    show ((tokenize t).foldl processWord
        ⟨[], (processText (mkState dct cw) t).state, []⟩).calls = []
    rw [foldl_processWord_no_calls (tokenize t)
      ⟨[], (processText (mkState dct cw) t).state, []⟩
      hkeys.2.1 hkeys.2.2.2.2]

/-- Witness for C7's amended theorem on the text `"aa bb aa"` (three
tokens, two distinct words) with a dictionary rejecting everything. -/
theorem c7_full_check_idempotent_witness :
    ((((tokenize "aa bb aa").map (fun tok => toLowerStr tok.word)).dedup.length ≤
        5000) ∧
      (processText (processText (mkState (some rejectAllDict) []) "aa bb aa").state
          "aa bb aa").results =
        (processText (mkState (some rejectAllDict) []) "aa bb aa").results) ∧
    (processText (processText (mkState (some rejectAllDict) []) "aa bb aa").state
        "aa bb aa").calls = [] :=
  ⟨⟨by decide,
    (c7_full_check_idempotent (some rejectAllDict) [] "aa bb aa").1⟩,
   (c7_full_check_idempotent (some rejectAllDict) [] "aa bb aa").2 (by decide)⟩

/-! ## C7 counterexample infrastructure: scanning space-separated words -/

/-- A non-trivial word of lowercase ASCII letters. -/
def LowerWord (w : String) : Prop :=
  (∀ c ∈ w.toList, 97 ≤ c.toNat ∧ c.toNat ≤ 122) ∧ 2 ≤ w.toList.length

theorem isWordChar_lower {c : Char} (h1 : 97 ≤ c.toNat) (h2 : c.toNat ≤ 122) :
    isWordChar c = true := by
  simp only [isWordChar, Bool.or_eq_true, Bool.and_eq_true, decide_eq_true_eq]
  omega

theorem isClassChar_lower {c : Char} (h1 : 97 ≤ c.toNat) (h2 : c.toNat ≤ 122) :
    isClassChar c = true := by
  simp only [isClassChar, Bool.or_eq_true, Bool.and_eq_true, decide_eq_true_eq]
  omega

theorem toLowerChar_lower {c : Char} (h1 : 97 ≤ c.toNat) : toLowerChar c = c := by
  unfold toLowerChar
  rw [if_neg (by omega)]

theorem toLowerStr_lower {w : String} (h : ∀ c ∈ w.toList, 97 ≤ c.toNat ∧ c.toNat ≤ 122) :
    toLowerStr w = w := by
  unfold toLowerStr
  have : w.toList.map toLowerChar = w.toList := by
    rw [List.map_congr_left (fun c hc => toLowerChar_lower (h c hc).1)]
    exact List.map_id _
  rw [this]
  rfl

/-- Scanning past the end yields nothing, for any fuel. -/
theorem scan_at_end (s : List Char) (i : Nat) (h : s.length ≤ i) :
    ∀ fuel, scanTokens s fuel i = [] := by
  intro fuel
  cases fuel with
  | zero => rfl
  | succ fuel => unfold scanTokens; rw [if_pos h]

/-- The scanner is fuel-insensitive once the fuel exceeds the remaining
length. -/
theorem scan_congr (s : List Char) :
    ∀ f1 f2 i, s.length - i < f1 → s.length - i < f2 →
      scanTokens s f1 i = scanTokens s f2 i := by
  intro f1
  induction f1 with
  | zero => intro f2 i h1 _; omega
  | succ f1 ih =>
    intro f2 i h1 h2
    cases f2 with
    | zero => omega
    | succ f2 =>
      unfold scanTokens
      by_cases hlen : s.length ≤ i
      · rw [if_pos hlen, if_pos hlen]
      · rw [if_neg hlen, if_neg hlen]
        have hi : i < s.length := by omega
        by_cases hb : boundaryB s i
        · rw [if_pos hb, if_pos hb]
          cases hfk : findK s i (runLen s i) with
          | some k =>
            have hk := findK_spec s i (runLen s i) k hfk
            dsimp only
            rw [ih f2 (i + k) (by omega) (by omega)]
          | none =>
            dsimp only
            exact ih f2 (i + 1) (by omega) (by omega)
        · rw [if_neg hb, if_neg hb]
          exact ih f2 (i + 1) (by omega) (by omega)

theorem takeWhile_append_all {p : Char → Bool} :
    ∀ (a b : List Char), (∀ c ∈ a, p c = true) →
      (a ++ b).takeWhile p = a ++ b.takeWhile p := by
  intro a
  induction a with
  | nil => intro b _; simp
  | cons c cs ih =>
    intro b h
    rw [List.cons_append, List.takeWhile_cons_of_pos (h c (List.mem_cons_self _ _)),
      ih b (fun c' hc' => h c' (List.mem_cons_of_mem _ hc')), List.cons_append]

theorem wordAt_lower_of_lt {wc rest : List Char} {i : Nat}
    (hlow : ∀ c ∈ wc, 97 ≤ c.toNat ∧ c.toNat ≤ 122) (hi : i < wc.length) :
    wordAt (wc ++ rest) i = true := by
  unfold wordAt
  rw [List.get?_append hi]
  cases hget : wc.get? i with
  | none => rw [List.get?_eq_none] at hget; omega
  | some c =>
    have hmem : c ∈ wc := List.get?_mem hget
    exact isWordChar_lower (hlow c hmem).1 (hlow c hmem).2

theorem wordAt_at_rest {wc rest : List Char} :
    wordAt (wc ++ rest) wc.length = wordAt rest 0 := by
  unfold wordAt
  rw [List.get?_append_right (le_refl _), Nat.sub_self]

/-- `findK` succeeds at the full run length when a boundary sits there. -/
theorem findK_top (s : List Char) (i m : Nat) (h2 : 2 ≤ m)
    (hb : boundaryB s (i + m) = true) : findK s i m = some m := by
  cases m with
  | zero => omega
  | succ m =>
    cases m with
    | zero => omega
    | succ m' =>
      unfold findK
      rw [if_pos hb]

/-- Head word: scanning a lowercase word optionally followed by a
non-word, non-class character matches it entirely. -/
theorem scan_head_word (wc rest : List Char)
    (hlow : ∀ c ∈ wc, 97 ≤ c.toNat ∧ c.toNat ≤ 122) (hlen2 : 2 ≤ wc.length)
    (hrest : rest = [] ∨ ∃ r rs, rest = r :: rs ∧ isClassChar r = false ∧
      isWordChar r = false) (fuel : Nat) :
    scanTokens (wc ++ rest) (fuel + 1) 0 =
      ⟨String.mk wc, 0, wc.length⟩ :: scanTokens (wc ++ rest) fuel wc.length := by
  have hlenpos : 0 < (wc ++ rest).length := by
    rw [List.length_append]; omega
  have hb0 : boundaryB (wc ++ rest) 0 = true := by
    unfold boundaryB
    rw [if_pos rfl, wordAt_lower_of_lt hlow (by omega)]
    rfl
  have hwrest : wordAt rest 0 = false := by
    rcases hrest with h | ⟨r, rs, hr, _, hw⟩
    · rw [h]; rfl
    · rw [hr]; unfold wordAt; simpa using hw
  have hbtop : boundaryB (wc ++ rest) (0 + wc.length) = true := by
    rw [Nat.zero_add]
    unfold boundaryB
    rw [if_neg (by omega), wordAt_lower_of_lt hlow (by omega), wordAt_at_rest,
      hwrest]
    rfl
  have hrun : runLen (wc ++ rest) 0 = wc.length := by
    unfold runLen
    rw [List.drop_zero,
      takeWhile_append_all wc rest
        (fun c hc => isClassChar_lower (hlow c hc).1 (hlow c hc).2)]
    have : rest.takeWhile isClassChar = [] := by
      rcases hrest with h | ⟨r, rs, hr, hcl, _⟩
      · rw [h]; rfl
      · rw [hr]
        simp [List.takeWhile_cons, hcl]
    rw [this]
    simp
  unfold scanTokens
  rw [if_neg (by omega), if_pos hb0, hrun, findK_top _ _ _ hlen2 hbtop]
  dsimp only
  rw [List.drop_zero, List.take_left, Nat.zero_add]
  cases fuel <;> rfl

/-- Skipping the separating space: the scanner makes no match at the
space position right after a word. -/
theorem scan_skip_space (wc rest2 : List Char)
    (hlow : ∀ c ∈ wc, 97 ≤ c.toNat ∧ c.toNat ≤ 122) (hne : 0 < wc.length)
    (fuel : Nat) :
    scanTokens (wc ++ ' ' :: rest2) (fuel + 1) wc.length =
      scanTokens (wc ++ ' ' :: rest2) fuel (wc.length + 1) := by
  have hlen : wc.length < (wc ++ ' ' :: rest2).length := by
    rw [List.length_append, List.length_cons]; omega
  have hb : boundaryB (wc ++ ' ' :: rest2) wc.length = true := by
    unfold boundaryB
    rw [if_neg (by omega), wordAt_lower_of_lt hlow (by omega), wordAt_at_rest]
    rfl
  have hrun : runLen (wc ++ ' ' :: rest2) wc.length = 0 := by
    unfold runLen
    rw [List.drop_left]
    rfl
  unfold scanTokens
  rw [if_neg (by omega), if_pos hb, hrun]
  dsimp only [findK]
  cases fuel <;> rfl

theorem wordAt_shift (a b : List Char) (j : Nat) :
    wordAt (a ++ b) (a.length + j) = wordAt b j := by
  unfold wordAt
  rw [List.get?_append_right (Nat.le_add_right _ _), Nat.add_sub_cancel_left]

theorem wordAt_last {a : List Char} (ha : a ≠ [])
    (hlast : isWordChar (a.getLast ha) = false) (b : List Char) :
    wordAt (a ++ b) (a.length - 1) = false := by
  have hpos : 0 < a.length := List.length_pos.mpr ha
  unfold wordAt
  rw [List.get?_append (by omega),
    List.get?_eq_get (show a.length - 1 < a.length by omega)]
  rwa [← List.getLast_eq_get a ha]

theorem boundaryB_shift (a b : List Char) (ha : a ≠ [])
    (hlast : isWordChar (a.getLast ha) = false) (j : Nat) :
    boundaryB (a ++ b) (a.length + j) = boundaryB b j := by
  have hpos : 0 < a.length := List.length_pos.mpr ha
  cases j with
  | zero =>
    unfold boundaryB
    rw [if_neg (by omega), if_pos rfl, Nat.add_zero, wordAt_last ha hlast b]
    have : wordAt (a ++ b) a.length = wordAt b 0 := wordAt_at_rest
    rw [this]
  | succ j =>
    unfold boundaryB
    rw [if_neg (by omega), if_neg (by omega)]
    have h1 : a.length + (j + 1) - 1 = a.length + j := by omega
    have h2 : j + 1 - 1 = j := by omega
    rw [h1, h2, wordAt_shift, wordAt_shift]

theorem runLen_shift (a b : List Char) (j : Nat) :
    runLen (a ++ b) (a.length + j) = runLen b j := by
  unfold runLen
  rw [List.drop_append]

theorem findK_shift (a b : List Char) (ha : a ≠ [])
    (hlast : isWordChar (a.getLast ha) = false) (j : Nat) :
    ∀ m, findK (a ++ b) (a.length + j) m = findK b j m := by
  intro m
  induction m with
  | zero => rfl
  | succ m ih =>
    cases m with
    | zero => rfl
    | succ m' =>
      unfold findK
      have hsh : boundaryB (a ++ b) (a.length + j + (m' + 1 + 1)) =
          boundaryB b (j + (m' + 1 + 1)) := by
        rw [Nat.add_assoc]
        exact boundaryB_shift a b ha hlast _
      rw [hsh, ih]

/-- Scanning a suffix: if the last character before position `a.length`
is not a word character, tokens found after it are the tokens of the
suffix shifted by `a.length`. -/
theorem scan_shift (a b : List Char) (ha : a ≠ [])
    (hlast : isWordChar (a.getLast ha) = false) :
    ∀ fuel j, scanTokens (a ++ b) fuel (a.length + j) =
      (scanTokens b fuel j).map
        (fun tok => ⟨tok.word, a.length + tok.start, a.length + tok.«end»⟩) := by
  intro fuel
  induction fuel with
  | zero => intro j; rfl
  | succ fuel ih =>
    intro j
    unfold scanTokens
    by_cases hj : b.length ≤ j
    · rw [if_pos (by rw [List.length_append]; omega), if_pos hj]
      rfl
    · rw [if_neg (by rw [List.length_append]; omega), if_neg hj,
        boundaryB_shift a b ha hlast j]
      by_cases hb : boundaryB b j
      · rw [if_pos hb, if_pos hb, runLen_shift, findK_shift a b ha hlast]
        cases hfk : findK b j (runLen b j) with
        | some k =>
          dsimp only [List.map_cons]
          have hdrop : (a ++ b).drop (a.length + j) = b.drop j :=
            List.drop_append j
          have hrec : a.length + j + k = a.length + (j + k) := by omega
          rw [hdrop, hrec, ih (j + k)]
        | none =>
          dsimp only
          have hrec : a.length + j + 1 = a.length + (j + 1) := by omega
          rw [hrec, ih (j + 1)]
      · rw [if_neg hb, if_neg hb]
        have hrec : a.length + j + 1 = a.length + (j + 1) := by omega
        rw [hrec, ih (j + 1)]

/-- Join a list of words with single spaces. -/
def joinSp : List String → String
  | [] => ""
  | [w] => w
  | w :: w2 :: rest => w ++ " " ++ joinSp (w2 :: rest)

/-- The `n`-th three-letter lowercase word, base-26. -/
def numWord (n : Nat) : String :=
  String.mk [Char.ofNat (97 + n / 676 % 26), Char.ofNat (97 + n / 26 % 26),
    Char.ofNat (97 + n % 26)]

/-- 5001 distinct words: one more than the checked-words cache capacity. -/
def bigWords : List String := (List.range 5001).map numWord

def bigText : String := joinSp bigWords

theorem char_ofNat_toNat {x : Nat} (h : x < 26) :
    (Char.ofNat (97 + x)).toNat = 97 + x := by
  unfold Char.ofNat
  rw [dif_pos (by constructor <;> omega)]
  unfold Char.ofNatAux Char.toNat
  show (UInt32.ofNatCore (97 + x) _).toNat = 97 + x
  unfold UInt32.ofNatCore UInt32.toNat
  simp [BitVec.toNat_ofNatLt]

theorem numWord_lower (n : Nat) : LowerWord (numWord n) := by
  constructor
  · intro c hc
    have h1 : n / 676 % 26 < 26 := Nat.mod_lt _ (by omega)
    have h2 : n / 26 % 26 < 26 := Nat.mod_lt _ (by omega)
    have h3 : n % 26 < 26 := Nat.mod_lt _ (by omega)
    simp only [numWord, String.toList, String.mk, List.mem_cons,
      List.not_mem_nil, or_false] at hc
    rcases hc with h | h | h <;> subst h <;>
      rw [char_ofNat_toNat (by omega)] <;> omega
  · show 2 ≤ (3 : Nat)
    omega

theorem numWord_inj {m n : Nat} (hm : m < 17576) (hn : n < 17576)
    (h : numWord m = numWord n) : m = n := by
  unfold numWord at h
  have hlist : [Char.ofNat (97 + m / 676 % 26), Char.ofNat (97 + m / 26 % 26),
      Char.ofNat (97 + m % 26)] =
      [Char.ofNat (97 + n / 676 % 26), Char.ofNat (97 + n / 26 % 26),
      Char.ofNat (97 + n % 26)] := congrArg String.data h
  simp only [List.cons.injEq, and_true] at hlist
  obtain ⟨h1, h2, h3⟩ := hlist
  have e1 : 97 + m / 676 % 26 = 97 + n / 676 % 26 := by
    rw [← char_ofNat_toNat (Nat.mod_lt _ (by omega)),
      ← char_ofNat_toNat (Nat.mod_lt (n / 676) (by omega)), h1]
  have e2 : 97 + m / 26 % 26 = 97 + n / 26 % 26 := by
    rw [← char_ofNat_toNat (Nat.mod_lt _ (by omega)),
      ← char_ofNat_toNat (Nat.mod_lt (n / 26) (by omega)), h2]
  have e3 : 97 + m % 26 = 97 + n % 26 := by
    rw [← char_ofNat_toNat (Nat.mod_lt m (by omega)),
      ← char_ofNat_toNat (Nat.mod_lt n (by omega)), h3]
  omega

theorem bigWords_nodup : bigWords.Nodup := by
  refine List.Nodup.map_on ?_ (List.nodup_range 5001)
  intro x hx y hy hxy
  rw [List.mem_range] at hx hy
  exact numWord_inj (by omega) (by omega) hxy

theorem bigWords_lower : ∀ w ∈ bigWords, LowerWord w := by
  intro w hw
  obtain ⟨n, _, rfl⟩ := List.mem_map.mp hw
  exact numWord_lower n

theorem joinSp_cons_toList (w w2 : String) (rest : List String) :
    (joinSp (w :: w2 :: rest)).toList =
      w.toList ++ ' ' :: (joinSp (w2 :: rest)).toList := by
  show (w ++ " " ++ joinSp (w2 :: rest)).data = _
  rw [String.data_append, String.data_append, List.append_assoc]
  rfl

/-- Tokenizing space-joined non-trivial lowercase words recovers exactly
the word list. -/
theorem tokenize_joinSp : ∀ ws : List String, (∀ w ∈ ws, LowerWord w) →
    (tokenize (joinSp ws)).map Token.word = ws := by
  intro ws
  induction ws with
  | nil => intro _; rfl
  | cons w ws ih =>
    intro hws
    obtain ⟨hlow, hlen⟩ := hws w (List.mem_cons_self _ _)
    cases ws with
    | nil =>
      show (scanTokens (joinSp [w]).toList ((joinSp [w]).toList.length + 1) 0).map
        Token.word = [w]
      have hjs : (joinSp [w]).toList = w.toList ++ [] := by
        show w.toList = w.toList ++ []
        rw [List.append_nil]
      rw [hjs]
      rw [scan_head_word w.toList [] hlow hlen (Or.inl rfl)]
      rw [scan_at_end _ _ (by rw [List.append_nil])]
      show [String.mk w.toList] = [w]
      rfl
    | cons w2 rest =>
      have htail : ∀ w' ∈ w2 :: rest, LowerWord w' :=
        fun w' hw' => hws w' (List.mem_cons_of_mem _ hw')
      have hjs := joinSp_cons_toList w w2 rest
      set tl := (joinSp (w2 :: rest)).toList with htl
      show (scanTokens (joinSp (w :: w2 :: rest)).toList
        ((joinSp (w :: w2 :: rest)).toList.length + 1) 0).map Token.word = _
      rw [hjs]
      have hslen : (w.toList ++ ' ' :: tl).length =
          (w.toList.length + tl.length) + 1 := by
        rw [List.length_append, List.length_cons]
        omega
      rw [hslen]
      rw [scan_head_word w.toList (' ' :: tl) hlow hlen
        (Or.inr ⟨' ', tl, rfl, by decide, by decide⟩)]
      rw [scan_skip_space w.toList tl hlow (by omega)]
      have hsplit : w.toList ++ ' ' :: tl = (w.toList ++ [' ']) ++ tl := by
        rw [List.append_assoc]
        rfl
      have hpos : w.toList.length + 1 = (w.toList ++ [' ']).length + 0 := by
        rw [List.length_append]
        rfl
      have hane : w.toList ++ [' '] ≠ [] := by simp
      have hlast : isWordChar ((w.toList ++ [' ']).getLast hane) = false := by
        have hcat : (w.toList ++ [' ']).getLast hane = ' ' := by
          rw [List.getLast_append]
          simp
        rw [hcat]
        decide
      rw [hsplit, hpos, scan_shift (w.toList ++ [' ']) tl hane hlast]
      have hcongr : scanTokens tl (w.toList.length + tl.length) 0 =
          scanTokens tl (tl.length + 1) 0 :=
        scan_congr tl _ _ 0 (by omega) (by omega)
      rw [hcongr]
      have hihtok : (scanTokens tl (tl.length + 1) 0).map Token.word =
          w2 :: rest := ih htail
      rw [List.map_cons, List.map_map]
      have hmapw : (Token.word ∘ fun tok =>
          { word := tok.word, start := (w.toList ++ [' ']).length + tok.start,
            «end» := (w.toList ++ [' ']).length + tok.«end» } :
          Token → String) = Token.word := rfl
      rw [hmapw, hihtok]
      show String.mk w.toList :: w2 :: rest = w :: w2 :: rest
      rfl

theorem tokenize_bigText_words : (tokenize bigText).map Token.word = bigWords :=
  tokenize_joinSp bigWords bigWords_lower

theorem lru_set_keys_subset {K V : Type} [DecidableEq K] (c : LRUCache K V)
    (k : K) (v : V) : ∀ w ∈ (c.set k v).keys, w = k ∨ w ∈ c.keys := by
  intro w hw
  unfold LRUCache.set at hw
  by_cases hhas : c.has k
  · simp only [hhas, if_true] at hw
    show w = k ∨ w ∈ c.entries.map Prod.fst
    simp only [LRUCache.keys, List.map_cons, List.mem_cons] at hw
    rcases hw with hw | hw
    · exact Or.inl hw
    · obtain ⟨q, hq, hfst⟩ := List.mem_map.mp hw
      exact Or.inr (hfst ▸ List.mem_map_of_mem Prod.fst (removeKey_subset _ _ q hq))
  · simp only [hhas, Bool.false_eq_true, if_false] at hw
    show w = k ∨ w ∈ c.entries.map Prod.fst
    simp only [LRUCache.keys] at hw
    obtain ⟨q, hq, hfst⟩ := List.mem_map.mp hw
    have hq' : q ∈ (k, v) :: c.entries := by
      split at hq
      · exact List.dropLast_subset _ hq
      · exact hq
    rcases List.mem_cons.mp hq' with h | h
    · exact Or.inl (by rw [← hfst, h])
    · exact Or.inr (hfst ▸ List.mem_map_of_mem Prod.fst h)

/-- One fresh `processWord` step: the cache gets exactly one `set` and
the dictionary and custom set are untouched. -/
theorem processWord_fresh_step (acc : PTAcc) (tok : Token)
    (hfresh : toLowerStr tok.word ∉ acc.state.checkedCache.keys) :
    (processWord acc tok).state.checkedCache =
      acc.state.checkedCache.set (toLowerStr tok.word)
        (checkWordF acc.state.dictionary acc.state.customWords
          (toLowerStr tok.word)) ∧
    (processWord acc tok).state.dictionary = acc.state.dictionary ∧
    (processWord acc tok).state.customWords = acc.state.customWords := by
  unfold processWord
  have hfind : acc.state.checkedCache.entries.find?
      (fun p => decide (p.1 = toLowerStr tok.word)) = none :=
    find_none_of_not_mem_keys hfresh
  dsimp only
  rw [if_neg (by simp [lru_has_of_find_none hfind])]
  rw [checkWord_eq acc.state (toLowerStr tok.word)]
  dsimp only
  cases hv : checkWordF acc.state.dictionary acc.state.customWords
      (toLowerStr tok.word) with
  | true =>
    rw [if_pos rfl]
    exact ⟨rfl, rfl, rfl⟩
  | false =>
    rw [if_neg Bool.false_ne_true]
    exact ⟨rfl, rfl, rfl⟩

/-- Running the full-check loop over tokens whose lowercased words are
pairwise distinct and all absent from the cache performs exactly the
corresponding `insertList` on the word cache. -/
theorem foldl_processWord_insertList :
    ∀ (toks : List Token) (acc : PTAcc),
      ((toks.map fun tok => toLowerStr tok.word).Nodup) →
      (∀ tok ∈ toks, toLowerStr tok.word ∉ acc.state.checkedCache.keys) →
      (toks.foldl processWord acc).state.checkedCache =
        insertList acc.state.checkedCache
          (toks.map fun tok => (toLowerStr tok.word,
            checkWordF acc.state.dictionary acc.state.customWords
              (toLowerStr tok.word))) ∧
      (toks.foldl processWord acc).state.dictionary = acc.state.dictionary ∧
      (toks.foldl processWord acc).state.customWords = acc.state.customWords := by
  intro toks
  induction toks with
  | nil =>
    intro acc _ _
    exact ⟨by simp [insertList], rfl, rfl⟩
  | cons tok toks ih =>
    intro acc hnd hfr
    have hstep := processWord_fresh_step acc tok (hfr tok (List.mem_cons_self _ _))
    have hndtail : (toks.map fun tok => toLowerStr tok.word).Nodup := by
      simp only [List.map_cons, List.nodup_cons] at hnd
      exact hnd.2
    have hhead : toLowerStr tok.word ∉ toks.map fun tok => toLowerStr tok.word := by
      simp only [List.map_cons, List.nodup_cons] at hnd
      exact hnd.1
    have hfr' : ∀ tok' ∈ toks,
        toLowerStr tok'.word ∉ (processWord acc tok).state.checkedCache.keys := by
      intro tok' htok' hmem
      rw [hstep.1] at hmem
      rcases lru_set_keys_subset _ _ _ _ hmem with h | h
      · exact hhead (h ▸ List.mem_map_of_mem _ htok')
      · exact hfr tok' (List.mem_cons_of_mem _ htok') h
    have hrec := ih (processWord acc tok) hndtail hfr'
    simp only [List.foldl_cons]
    refine ⟨?_, hrec.2.1.trans hstep.2.1, hrec.2.2.trans hstep.2.2⟩
    rw [hrec.1, hstep.1, hstep.2.1, hstep.2.2]
    simp only [List.map_cons]
    rfl

theorem processWord_calls_extend (acc : PTAcc) (tok : Token) :
    ∃ l, (processWord acc tok).calls = acc.calls ++ l := by
  unfold processWord
  cases hfind : acc.state.checkedCache.entries.find?
      (fun p => decide (p.1 = toLowerStr tok.word)) with
  | some p =>
    dsimp only
    rw [if_pos (lru_has_of_find_some hfind), lru_get_of_find_some hfind]
    cases p.2 with
    | true => exact ⟨[], by simp⟩
    | false => exact ⟨[], by simp⟩
  | none =>
    dsimp only
    rw [if_neg (by simp [lru_has_of_find_none hfind])]
    cases hcw : checkWord acc.state (toLowerStr tok.word) with
    | mk iv nc =>
      dsimp only
      cases iv with
      | true => exact ⟨nc, by rw [if_pos rfl]⟩
      | false => exact ⟨nc, by rw [if_neg Bool.false_ne_true]⟩

/-- On a cache miss with no custom words and a present dictionary, the
`processWord` step records exactly one dictionary call. -/
theorem processWord_miss_calls (acc : PTAcc) (tok : Token) (d : Dict)
    (hfind : acc.state.checkedCache.entries.find?
      (fun p => decide (p.1 = toLowerStr tok.word)) = none)
    (hd : acc.state.dictionary = some d)
    (hc : acc.state.customWords = []) :
    (processWord acc tok).calls = acc.calls ++ [toLowerStr tok.word] := by
  unfold processWord
  dsimp only
  rw [if_neg (by simp [lru_has_of_find_none hfind])]
  rw [checkWord_eq acc.state (toLowerStr tok.word), hd, hc]
  dsimp only
  rw [show checkWordF (some d) [] (toLowerStr tok.word) =
    d.check (toLowerStr tok.word) from rfl]
  cases hv : d.check (toLowerStr tok.word) with
  | true =>
    rw [if_pos rfl]
    rfl
  | false =>
    rw [if_neg Bool.false_ne_true]
    rfl

theorem foldl_calls_extend :
    ∀ (toks : List Token) (acc : PTAcc),
      ∃ l, (toks.foldl processWord acc).calls = acc.calls ++ l := by
  intro toks
  induction toks with
  | nil => intro acc; exact ⟨[], by simp⟩
  | cons tok toks ih =>
    intro acc
    obtain ⟨l1, h1⟩ := processWord_calls_extend acc tok
    obtain ⟨l2, h2⟩ := ih (processWord acc tok)
    exact ⟨l1 ++ l2, by rw [List.foldl_cons, h2, h1, List.append_assoc]⟩

theorem numWord_zero_not_mem_tail : numWord 0 ∉ bigWords.drop 1 := by
  intro hmem
  unfold bigWords at hmem
  rw [List.range_succ_eq_map, List.map_cons, List.drop_one, List.tail_cons,
    List.map_map] at hmem
  obtain ⟨k, hk, heq⟩ := List.mem_map.mp hmem
  rw [List.mem_range] at hk
  simp only [Function.comp] at heq
  have := numWord_inj (by omega) (by omega) heq
  omega

theorem bigWords_head : bigWords = numWord 0 :: bigWords.drop 1 := by
  unfold bigWords
  rw [List.range_succ_eq_map, List.map_cons, List.drop_one, List.tail_cons]


/-- C7 counterexample: checking a text of 5001 distinct words twice in a
row is not dictionary-call free — the 5000-entry word cache evicts the
first word during the first run, so the second identical full check
calls the dictionary again. -/
theorem c7_second_full_check_calls_dictionary :
    (processText (processText (mkState (some acceptAllDict) []) bigText).state
      bigText).calls ≠ [] := by
  have htokw : (tokenize bigText).map Token.word = bigWords := tokenize_bigText_words
  have hlowfix : ∀ w ∈ bigWords, toLowerStr w = w :=
    fun w hw => toLowerStr_lower (bigWords_lower w hw).1
  have hlows : ((tokenize bigText).map fun tok => toLowerStr tok.word) = bigWords := by
    have h1 : ((tokenize bigText).map fun tok => toLowerStr tok.word) =
        ((tokenize bigText).map Token.word).map toLowerStr := by
      rw [List.map_map]
      rfl
    rw [h1, htokw, List.map_congr_left hlowfix]
    exact List.map_id _
  have hndlows : ((tokenize bigText).map fun tok => toLowerStr tok.word).Nodup := by
    rw [hlows]
    exact bigWords_nodup
  have hrun1 := foldl_processWord_insertList (tokenize bigText)
    ⟨[], mkState (some acceptAllDict) [], []⟩ hndlows
    (by
      intro tok _ hmem
      simp [mkState, LRUCache.empty, LRUCache.keys] at hmem)
  have hpt : processText (mkState (some acceptAllDict) []) bigText =
      (tokenize bigText).foldl processWord
        ⟨[], mkState (some acceptAllDict) [], []⟩ := rfl
  have hcache1 : (processText (mkState (some acceptAllDict) []) bigText).state.checkedCache =
      insertList (LRUCache.empty String Bool 5000)
        ((tokenize bigText).map fun tok => (toLowerStr tok.word,
          checkWordF (some acceptAllDict) [] (toLowerStr tok.word))) := by
    rw [hpt]
    exact hrun1.1
  have hdict1 : (processText (mkState (some acceptAllDict) []) bigText).state.dictionary =
      some acceptAllDict := by
    rw [hpt]
    exact hrun1.2.1
  have hcw1 : (processText (mkState (some acceptAllDict) []) bigText).state.customWords =
      ([] : List String) := by
    rw [hpt]
    exact hrun1.2.2
  have hfst : (((tokenize bigText).map fun tok => (toLowerStr tok.word,
      checkWordF (some acceptAllDict) [] (toLowerStr tok.word))).map Prod.fst) =
      bigWords := by
    rw [List.map_map]
    exact hlows
  have hbiglen : bigWords.length = 5001 := by
    simp [bigWords]
  have hplen : ((tokenize bigText).map fun tok => (toLowerStr tok.word,
      checkWordF (some acceptAllDict) [] (toLowerStr tok.word))).length = 5000 + 1 := by
    have h := congrArg List.length hfst
    rw [List.length_map] at h
    rw [h, hbiglen]
  have hover := insertList_overflow 5000
    ((tokenize bigText).map fun tok => (toLowerStr tok.word,
      checkWordF (some acceptAllDict) [] (toLowerStr tok.word)))
    (by rw [hfst]; exact bigWords_nodup) (by rw [hplen])
  have hkeys1 : (processText (mkState (some acceptAllDict) []) bigText).state.checkedCache.keys =
      (bigWords.drop 1).reverse := by
    simp only [LRUCache.keys]
    rw [hcache1, hover, List.map_reverse, List.map_drop, hfst]
  have h0 : numWord 0 ∉
      (processText (mkState (some acceptAllDict) []) bigText).state.checkedCache.keys := by
    rw [hkeys1, List.mem_reverse]
    exact numWord_zero_not_mem_tail
  obtain ⟨tok0, toksRest, htoks⟩ : ∃ tok0 toksRest,
      tokenize bigText = tok0 :: toksRest := by
    cases ht : tokenize bigText with
    | nil =>
      exfalso
      rw [ht] at htokw
      have hzero : bigWords.length = 0 := by rw [← htokw]; rfl
      rw [hbiglen] at hzero
      exact absurd hzero (by omega)
    | cons a l => exact ⟨a, l, rfl⟩
  have hword0 : tok0.word = numWord 0 := by
    have h := htokw
    rw [htoks, List.map_cons, bigWords_head] at h
    exact (List.cons_eq_cons.mp h).1
  have hlow0 : toLowerStr tok0.word = numWord 0 := by
    rw [hword0]
    exact toLowerStr_lower (numWord_lower 0).1
  obtain ⟨st1, hst1⟩ : ∃ st1,
      (processText (mkState (some acceptAllDict) []) bigText).state = st1 :=
    ⟨_, rfl⟩
  rw [hst1] at hdict1 hcw1 h0 ⊢
  have hfind0 : st1.checkedCache.entries.find?
      (fun p => decide (p.1 = toLowerStr tok0.word)) = none := by
    rw [hlow0]
    exact find_none_of_not_mem_keys h0
  have hcalls0 : (processWord ⟨[], st1, []⟩ tok0).calls = [numWord 0] := by
    rw [processWord_miss_calls ⟨[], st1, []⟩ tok0 acceptAllDict hfind0 hdict1 hcw1,
      hlow0]
    rfl
  have hstate2 : processText st1 bigText =
      toksRest.foldl processWord (processWord ⟨[], st1, []⟩ tok0) := by
    show (tokenize bigText).foldl processWord _ = _
    rw [htoks, List.foldl_cons]
  obtain ⟨l, hl⟩ := foldl_calls_extend toksRest (processWord ⟨[], st1, []⟩ tok0)
  intro hnil
  rw [hstate2, hl, hcalls0] at hnil
  simp at hnil

/-! ## C1: incremental vs full check -/

/-- C1: refuted on the code.  For the single-character edit
`"2'xb" → "2'ab"` (with a dictionary rejecting every word, empty custom
word set and empty caches), `calculateIncrementalCheckRegions` produces
the single region `[1,4)` with text `"'ab"`; a full check of `"2'ab"`
reports the invalid word `"'ab"` at `[1,4)`, but the incremental check
of that very region reports `"ab"` at `[2,4)`: slicing the region drops
the word-boundary context (`'2'` is a word character, so in the full
text the match starts at the apostrophe), hence the reported word string
and start offset differ inside the changed region plus context. -/
theorem c1_incremental_differs_from_full_at_failing_input :
    calculateIncrementalCheckRegions "2'xb" "2'ab" = [⟨1, 4, "'ab"⟩] ∧
    (processText (mkState (some rejectAllDict) []) "2'ab").results =
      [⟨"'ab", 1, 4⟩] ∧
    (processIncrementalText (mkState (some rejectAllDict) []) "2'ab"
        (calculateIncrementalCheckRegions "2'xb" "2'ab")).results =
      [⟨"ab", 2, 4, false⟩] ∧
    (processIncrementalText (mkState (some rejectAllDict) []) "2'ab"
        (calculateIncrementalCheckRegions "2'xb" "2'ab")).results.map
        (fun r => (r.word, r.start, r.«end»)) ≠
      (processText (mkState (some rejectAllDict) []) "2'ab").results.map
        (fun e => (e.word, e.start, e.«end»)) := by
  refine ⟨by decide, by decide, by decide, by decide⟩

/-! ## C2: mergeOverlappingRegions -/

/-- C2: refuted on the code.  Merging `[0,5)` (text `"01234"`) and
`[4,10)` (text `"456789"`) over the document `"0123456789"` yields the
span `[0,10)` but text `"456789"`, not the document substring
`"0123456789"`: the source slices `last.text` by the absolute offset
`last.start` and `current.text` by `current.end - last.start`, which
does not reconstruct the merged span's text. -/
theorem c2_merge_text_is_not_document_substring :
    mergeOverlappingRegions [⟨0, 5, "01234"⟩, ⟨4, 10, "456789"⟩] =
      [⟨0, 10, "456789"⟩] ∧
    sliceStr "0123456789" 0 10 = "0123456789" ∧
    (mergeOverlappingRegions [⟨0, 5, "01234"⟩, ⟨4, 10, "456789"⟩]).map
        Region.text ≠ ["0123456789"] := by
  refine ⟨by decide, by decide, by decide⟩

/-! ## C3: custom-word mutations -/

/-- C3 counterexample: a `CLEAR_WORDS` message posts no message at all —
in particular no `CHECK_RESULT` — even though the saved last full text
is non-empty, contradicting the claim that all three custom-word-set
mutations re-run a full check whenever the saved text is non-empty. -/
theorem c3_clear_words_posts_no_check_result :
    ({ mkState none ["hi"] with lastFullText := "hi there" } : WState).lastFullText ≠ "" ∧
    (handleMessage { mkState none ["hi"] with lastFullText := "hi there" }
      .clearWords).2 = [] := by
  refine ⟨by decide, by rfl⟩

/-! ## C4: region-cache staleness guard -/

/-- C4 counterexample: run an incremental check on the region `[0,3)`
with text `"ab."` (empty caches, a dictionary rejecting every word);
the loop stores the entry `{words: ["ab"], results: [...]}` for that
region.  A second check of the *identical* region — its current text
trivially equals the recorded text, whitespace-normalized or not — is
nevertheless *not* served from the cache: the guard compares the
concatenated cached words (`"ab"`) with the whitespace-stripped text
(`"ab."`), and the period makes it fail, so the region is recomputed. -/
theorem c4_identical_region_text_recomputed :
    ((processIncrementalText (mkState (some rejectAllDict) []) "ab."
        [⟨0, 3, "ab."⟩]).state.regionCache.get "0-3").1 =
      some ⟨["ab"], [⟨"ab", 0, 2, false⟩]⟩ ∧
    regionHit (processIncrementalText (mkState (some rejectAllDict) []) "ab."
        [⟨0, 3, "ab."⟩]).state ⟨0, 3, "ab."⟩ = false := by
  refine ⟨by decide, by decide⟩

/-! ## C6: LRU eviction -/

/-- C6, amended: confirmed except for the degenerate capacity-1 case.
(1) Inserting `c + 1` pairwise-distinct keys into an empty LRU cache of
capacity `c` (no intervening accesses) evicts exactly the
first-inserted, least-recently-accessed key and no other: the final
entries are precisely the last `c` insertions in recency order.
(2) On any full cache with at least two (distinct-keyed) entries,
reading a key via `get` and then inserting a fresh key evicts the
least-recently-used entry as of after the `get` — which is never the
key that was read — and every other key survives. -/
theorem c6_lru_eviction_amended :
    (∀ (K V : Type) [DecidableEq K] (c : Nat) (ps : List (K × V)),
      (ps.map Prod.fst).Nodup → ps.length = c + 1 →
      (insertList (LRUCache.empty K V c) ps).entries = (ps.drop 1).reverse) ∧
    (∀ (K V : Type) [DecidableEq K] (st : LRUCache K V) (kq k : K) (v : V),
      2 ≤ st.capacity → st.entries.length = st.capacity → st.keys.Nodup →
      kq ∈ st.keys → k ∉ st.keys →
      ∃ evicted : K × V,
        ((st.get kq).2).entries.getLast? = some evicted ∧
        evicted.1 ≠ kq ∧
        kq ∈ (((st.get kq).2).set k v).keys ∧
        k ∈ (((st.get kq).2).set k v).keys ∧
        evicted.1 ∉ (((st.get kq).2).set k v).keys ∧
        ∀ k' ∈ st.keys, k' ≠ evicted.1 → k' ∈ (((st.get kq).2).set k v).keys) :=
  ⟨fun _ _ _ c ps hnd hlen => insertList_overflow c ps hnd hlen,
   fun _ _ _ st kq k v hcap hfull hnd hkq hk =>
     lru_get_protects st kq k v hcap hfull hnd hkq hk⟩

/-- Witness for C6's amended theorem: capacity 2, keys `10, 11, 12`
inserted (`10` evicted); and on the full cache `[(11,1), (10,0)]`,
reading `10` then inserting `12` evicts `11`, protecting `10`. -/
theorem c6_lru_eviction_amended_witness :
    (insertList (LRUCache.empty Nat Nat 2) [(10, 0), (11, 1), (12, 2)]).entries =
      (([(10, 0), (11, 1), (12, 2)] : List (Nat × Nat)).drop 1).reverse ∧
    ∃ evicted : Nat × Nat,
      (((⟨2, [(11, 1), (10, 0)]⟩ : LRUCache Nat Nat).get 10).2).entries.getLast? =
        some evicted ∧
      evicted.1 ≠ 10 ∧
      10 ∈ ((((⟨2, [(11, 1), (10, 0)]⟩ : LRUCache Nat Nat).get 10).2).set 12 5).keys ∧
      12 ∈ ((((⟨2, [(11, 1), (10, 0)]⟩ : LRUCache Nat Nat).get 10).2).set 12 5).keys ∧
      evicted.1 ∉ ((((⟨2, [(11, 1), (10, 0)]⟩ : LRUCache Nat Nat).get 10).2).set 12 5).keys ∧
      ∀ k' ∈ (⟨2, [(11, 1), (10, 0)]⟩ : LRUCache Nat Nat).keys, k' ≠ evicted.1 →
        k' ∈ ((((⟨2, [(11, 1), (10, 0)]⟩ : LRUCache Nat Nat).get 10).2).set 12 5).keys :=
  ⟨c6_lru_eviction_amended.1 Nat Nat 2 [(10, 0), (11, 1), (12, 2)]
     (by decide) (by decide),
   c6_lru_eviction_amended.2 Nat Nat ⟨2, [(11, 1), (10, 0)]⟩ 10 12 5
     (by decide) (by decide) (by decide) (by decide) (by decide)⟩

/-- C6 counterexample: in a capacity-1 cache, insert `"a"`, read it via
`get`, then insert the fresh key `"b"`: the read key `"a"` is evicted
anyway (it is itself the least-recently-used entry), contradicting the
claim that a key read via `get` before the overflow insertion is never
the one evicted. -/
theorem c6_capacity_one_read_key_still_evicted :
    (((((LRUCache.empty String Nat 1).set "a" 1).get "a").2).set "b" 2).entries =
      [("b", 2)] ∧
    "a" ∉ (((((LRUCache.empty String Nat 1).set "a" 1).get "a").2).set "b" 2).keys := by
  refine ⟨by decide, by decide⟩

/-! ## C8: shape of reported words -/

/-- C8 counterexample: reported words need not be maximal runs of
letters and apostrophes, and punctuation-only words can be reported.
On `"1''2"` (dictionary rejecting every word) the full check reports
the word `"''"` — made of apostrophes only — because `\b` matches
between a digit and an apostrophe; and on `"ab'"` it reports `"ab"`
even though the run of `[a-zA-Z']` characters containing it extends to
the apostrophe at index 2, so the reported word is not maximal. -/
theorem c8_punct_only_and_non_maximal_words_reported :
    (processText (mkState (some rejectAllDict) []) "1''2").results =
      [⟨"''", 1, 3⟩] ∧
    "''".toList.all (fun c => decide (c = '\'')) = true ∧
    (processText (mkState (some rejectAllDict) []) "ab'").results =
      [⟨"ab", 0, 2⟩] ∧
    isClassChar ("ab'".toList.getD 2 ' ') = true := by
  refine ⟨by decide, by decide, by decide, by decide⟩

end SpellWorker
